import Mathlib

/-!
Verification of the `myOrderBook` limit order book core (src/OrderBook.h,
src/OrderBook.cpp) by a shallow embedding in Lean 4.

Modelling choices, matched to the C++ source:

* `double` prices are modelled as `Int`.  The core only compares prices
  (exact equality for level keying, `<`/`>` for side ordering), so any
  linearly ordered type with decidable equality is a faithful model of the
  price arithmetic the code actually performs.
* `chrono::system_clock::time_point` timestamps are modelled as `Nat`
  (only compared, never computed with).
* `uint64_t` quantities are modelled as `Nat` (only stored and compared;
  the code performs no arithmetic on a stored quantity).
* `std::map<double, PriceLevel, Cmp>` (one per side) is modelled as an
  association list `List (Int × List String)` whose keys are kept in the
  comparator's strict order; each level stores the ids of its orders in
  list order (the `std::list<shared_ptr<Order>>` node sequence).
* `shared_ptr<Order>` is a shared mutable reference.  Order objects live
  in a heap `heap : List (String × Order)` keyed by the order's id (an
  order's identity is its id: the book never holds two live orders with
  the same id).  A `shared_ptr<Order>` held by a list node, by the lookup
  table, or returned to a caller is modelled as the id (`String`), and
  dereferencing reads the heap of the current state — this preserves the
  aliasing behaviour of the C++ (queries hand back pointers to live,
  mutable order state).
* the `list<...>::iterator` stored in `OrderLookup` is modelled by the
  order's id: a list iterator is a stable reference to the unique node
  holding that order, and erasing through it removes exactly the node
  whose stored pointer is that order, i.e. the unique occurrence of the
  id in the level's sequence.
* `std::unordered_map` (`orders_by_id`, and the heap) is modelled as an
  association list with insert-or-overwrite (`aupsert`) and erase
  (`aerase`); no claim depends on its iteration order.
-/

namespace ob

/-- `enum class Side { Bid, Ask }`. -/
inductive Side where
  | Bid : Side
  | Ask : Side
deriving DecidableEq, Repr

/-- `enum class TxnType { Add, Amend, Remove }`. -/
inductive TxnType where
  | Add : TxnType
  | Amend : TxnType
  | Remove : TxnType
deriving DecidableEq, Repr

/-- `struct Transaction { TxnType type; TimePoint time; }`. -/
structure Transaction where
  type : TxnType
  time : Nat
deriving DecidableEq, Repr

/-- `struct Order` (id, side, price, quantity, creation_time,
last_update_time, last_txn). -/
structure Order where
  id : String
  side : Side
  price : Int
  quantity : Nat
  creation_time : Nat
  last_update_time : Nat
  last_txn : Transaction
deriving DecidableEq, Repr

/-- `struct OrderLookup { Side side; double price; ... }`; the stored list
iterator is modelled by the order's id (see the module comment). -/
structure OrderLookup where
  side : Side
  price : Int
deriving DecidableEq, Repr

/-! ### Association-list primitives (unordered_map model) -/

/-- Lookup in an association list (first matching key). -/
def afind {α : Type} (m : List (String × α)) (k : String) : Option α :=
  match m with
  | [] => none
  | e :: r => if e.1 = k then some e.2 else afind r k

/-- `m[k] = v`: overwrite in place if the key is present, else append. -/
def aupsert {α : Type} (m : List (String × α)) (k : String) (v : α) :
    List (String × α) :=
  if (afind m k).isSome then
    m.map (fun e => if e.1 = k then (k, v) else e)
  else
    m ++ [(k, v)]

/-- `m.erase(k)`. -/
def aerase {α : Type} (m : List (String × α)) (k : String) :
    List (String × α) :=
  m.filter (fun e => decide (e.1 ≠ k))

/-! ### Sorted price-level map primitives (`std::map<double, PriceLevel, Cmp>`) -/

/-- The side's key comparator: `DescPrice` (`a > b`) for bids,
`AscePrice` (`a < b`) for asks. -/
def keyLt (s : Side) (a b : Int) : Bool :=
  match s with
  | Side.Bid => decide (b < a)
  | Side.Ask => decide (a < b)

/-- `pl_map.find(p)`. -/
def lfind (m : List (Int × List String)) (p : Int) : Option (List String) :=
  match m with
  | [] => none
  | e :: r => if e.1 = p then some e.2 else lfind r p

/-- Replace the sequence stored at an existing key `p`. -/
def lset (m : List (Int × List String)) (p : Int) (l : List String) :
    List (Int × List String) :=
  m.map (fun e => if e.1 = p then (p, l) else e)

/-- `pl_map.erase(p)`. -/
def lerase (m : List (Int × List String)) (p : Int) :
    List (Int × List String) :=
  m.filter (fun e => decide (e.1 ≠ p))

/-- `pl_map.emplace(p, PriceLevel(p))` for an absent key: insert at the
comparator-sorted position. -/
def linsert (lt : Int → Int → Bool) (m : List (Int × List String)) (p : Int)
    (l : List String) : List (Int × List String) :=
  match m with
  | [] => [(p, l)]
  | e :: r => if lt p e.1 then (p, l) :: e :: r else e :: linsert lt r p l

/-- The find-or-create-then-`push_back` pattern used by `add_order` and by
the price-changing branch of `amend_order`. -/
def lpush (lt : Int → Int → Bool) (m : List (Int × List String)) (p : Int)
    (oid : String) : List (Int × List String) :=
  match lfind m p with
  | some l => lset m p (l ++ [oid])
  | none => linsert lt m p [oid]

/-! ### The book state -/

/-- `class OrderBook`: the two side maps, the id lookup table, and the heap
of live `Order` objects (the targets of the `shared_ptr`s, keyed by id). -/
structure OrderBook where
  bid_book : List (Int × List String)
  ask_book : List (Int × List String)
  orders_by_id : List (String × OrderLookup)
  heap : List (String × Order)
deriving DecidableEq, Repr

/-- `OrderBook()` — the empty book. -/
def emptyBook : OrderBook := ⟨[], [], [], []⟩

/-- The side map selected by `side` (the `pl_map` the per-side lambdas
receive). -/
def bookOf (b : OrderBook) (s : Side) : List (Int × List String) :=
  match s with
  | Side.Bid => b.bid_book
  | Side.Ask => b.ask_book

/-- Store back the side map selected by `side`. -/
def setBook (b : OrderBook) (s : Side) (m : List (Int × List String)) :
    OrderBook :=
  match s with
  | Side.Bid => { b with bid_book := m }
  | Side.Ask => { b with ask_book := m }

/-! ### Mutating operations (src/OrderBook.cpp) -/

/-- `OrderBook::add_order` (OrderBook.cpp lines 6–43). -/
def add_order (b : OrderBook) (id : String) (side : Side) (price : Int)
    (qty : Nat) (t : Nat) : Bool × OrderBook :=
  if (afind b.orders_by_id id).isSome then (false, b)
  else
    let order : Order :=
      { id := id, side := side, price := price, quantity := qty,
        creation_time := t, last_update_time := t,
        last_txn := ⟨TxnType.Add, t⟩ }
    let m := lpush (keyLt side) (bookOf b side) price id
    (true, { setBook b side m with
             orders_by_id := aupsert b.orders_by_id id ⟨side, price⟩,
             heap := aupsert b.heap id order })

/-- `OrderBook::remove_order` (OrderBook.cpp lines 45–76).  Its `TimePoint`
argument is never read by the body. -/
def remove_order (b : OrderBook) (id : String) (_t : Nat) : Bool × OrderBook :=
  match afind b.orders_by_id id with
  | none => (false, b)
  | some info =>
    match lfind (bookOf b info.side) info.price with
    | none => (false, b)
    | some l =>
      let l' := l.erase id
      let m := if l' = [] then lerase (bookOf b info.side) info.price
               else lset (bookOf b info.side) info.price l'
      (true, { setBook b info.side m with
               orders_by_id := aerase b.orders_by_id id,
               heap := aerase b.heap id })

/-- `OrderBook::amend_order` (OrderBook.cpp lines 83–183). -/
def amend_order (b : OrderBook) (id : String) (new_price : Option Int)
    (new_qty : Option Nat) (t : Nat) : Bool × OrderBook :=
  match afind b.orders_by_id id with
  | none => (false, b)
  | some info =>
    match afind b.heap id with
    | none => (false, b)
    | some o =>
      let old_price := info.price
      let old_qty := o.quantity
      let side := info.side
      let price_changed : Bool :=
        match new_price with
        | some np => decide (np ≠ old_price)
        | none => false
      let qty_changed : Bool :=
        match new_qty with
        | some nq => decide (nq ≠ old_qty)
        | none => false
      let keep_priority : Bool := !price_changed && qty_changed &&
        (match new_qty with
         | some nq => decide (nq < old_qty)
         | none => false)
      if price_changed then
        let np := new_price.getD old_price
        let m := bookOf b side
        let m1 :=
          match lfind m old_price with
          | none => m
          | some l =>
            let l' := l.erase id
            if l' = [] then lerase m old_price else lset m old_price l'
        let o' : Order :=
          { o with price := np, quantity := new_qty.getD o.quantity,
                   last_update_time := t, last_txn := ⟨TxnType.Amend, t⟩ }
        let m2 := lpush (keyLt side) m1 np id
        (true, { setBook b side m2 with
                 orders_by_id := aupsert b.orders_by_id id ⟨side, np⟩,
                 heap := aupsert b.heap id o' })
      else
        if qty_changed = false then (false, b)
        else if keep_priority then
          let o' : Order :=
            { o with quantity := new_qty.getD o.quantity,
                     last_txn := ⟨TxnType.Amend, t⟩ }
          (true, { b with heap := aupsert b.heap id o' })
        else
          match lfind (bookOf b side) old_price with
          | none => (false, b)
          | some l =>
            let l' := l.erase id ++ [id]
            let o' : Order :=
              { o with quantity := new_qty.getD o.quantity,
                       last_update_time := t,
                       last_txn := ⟨TxnType.Amend, t⟩ }
            (true, { setBook b side (lset (bookOf b side) old_price l') with
                     orders_by_id := aupsert b.orders_by_id id ⟨side, old_price⟩,
                     heap := aupsert b.heap id o' })

/-! ### Query surface (src/OrderBook.cpp lines 186–356).

Queries returning `shared_ptr<Order>` return the order's id (the modelled
pointer); `deref` reads the pointed-to live order in a given state. -/

/-- Dereference a modelled `shared_ptr<Order>` in state `b`. -/
def deref (b : OrderBook) (r : String) : Option Order :=
  afind b.heap r

/-- `OrderBook::top_price`: `begin()->first`, or `nullopt` when empty. -/
def top_price (b : OrderBook) (s : Side) : Option Int :=
  match bookOf b s with
  | [] => none
  | e :: _ => some e.1

/-- `OrderBook::bottom_price`: `rbegin()->first`, or `nullopt` when empty. -/
def bottom_price (b : OrderBook) (s : Side) : Option Int :=
  ((bookOf b s).getLast?).map Prod.fst

/-- `OrderBook::is_crossed`. -/
def is_crossed (b : OrderBook) : Bool :=
  match top_price b Side.Bid, top_price b Side.Ask with
  | some tb, some ta => decide (ta ≤ tb)
  | _, _ => false

/-- `OrderBook::num_price_levels`. -/
def num_price_levels (b : OrderBook) (s : Side) : Nat :=
  (bookOf b s).length

/-- `OrderBook::price_levels`. -/
def price_levels (b : OrderBook) (s : Side) : List Int :=
  (bookOf b s).map Prod.fst

/-- `OrderBook::num_orders_at`. -/
def num_orders_at (b : OrderBook) (s : Side) (p : Int) : Nat :=
  match lfind (bookOf b s) p with
  | none => 0
  | some l => l.length

/-- `OrderBook::orders_at`, as the sequence of returned pointers (ids). -/
def orders_at (b : OrderBook) (s : Side) (p : Int) : List String :=
  match lfind (bookOf b s) p with
  | none => []
  | some l => l

/-- The orders `orders_at` hands back, dereferenced in the same state. -/
def snapshots_at (b : OrderBook) (s : Side) (p : Int) : List Order :=
  (orders_at b s p).filterMap (deref b)

/-- `OrderBook::num_orders_on_side`. -/
def num_orders_on_side (b : OrderBook) (s : Side) : Nat :=
  ((bookOf b s).map (fun e => e.2.length)).sum

/-- `OrderBook::orders_on_side`, as the sequence of returned pointers. -/
def orders_on_side (b : OrderBook) (s : Side) : List String :=
  ((bookOf b s).map Prod.snd).flatten

/-- `OrderBook::get_order`: the `shared_ptr` stored at the looked-up list
node (modelled by the id), or `nullopt`. -/
def get_order (b : OrderBook) (id : String) : Option String :=
  match afind b.orders_by_id id with
  | none => none
  | some _ => some id

/-- `OrderBook::last_transaction`. -/
def last_transaction (b : OrderBook) (id : String) : Option Transaction :=
  match get_order b id with
  | none => none
  | some r => (deref b r).map Order.last_txn

/-- `OrderBook::orders_created_before`. -/
def orders_created_before (b : OrderBook) (t : Nat) : List String :=
  b.orders_by_id.filterMap (fun e =>
    match afind b.heap e.1 with
    | some o => if o.creation_time < t then some e.1 else none
    | none => none)

/-- `OrderBook::orders_created_after`. -/
def orders_created_after (b : OrderBook) (t : Nat) : List String :=
  b.orders_by_id.filterMap (fun e =>
    match afind b.heap e.1 with
    | some o => if t < o.creation_time then some e.1 else none
    | none => none)

/-- `OrderBook::orders_updated_before`. -/
def orders_updated_before (b : OrderBook) (t : Nat) : List String :=
  b.orders_by_id.filterMap (fun e =>
    match afind b.heap e.1 with
    | some o => if o.last_update_time < t then some e.1 else none
    | none => none)

/-- `OrderBook::orders_updated_after`. -/
def orders_updated_after (b : OrderBook) (t : Nat) : List String :=
  b.orders_by_id.filterMap (fun e =>
    match afind b.heap e.1 with
    | some o => if t < o.last_update_time then some e.1 else none
    | none => none)

/-! ### Event traces and reachability -/

/-- One call to a mutating operation, with its explicit timestamp. -/
inductive Event where
  | add (id : String) (side : Side) (price : Int) (qty : Nat) (t : Nat) : Event
  | remove (id : String) (t : Nat) : Event
  | amend (id : String) (new_price : Option Int) (new_qty : Option Nat)
      (t : Nat) : Event
deriving DecidableEq, Repr

/-- The timestamp an event carries. -/
def Event.time : Event → Nat
  | Event.add _ _ _ _ t => t
  | Event.remove _ t => t
  | Event.amend _ _ _ t => t

/-- Apply one call (discarding the boolean result). -/
def applyEvent (b : OrderBook) (e : Event) : OrderBook :=
  match e with
  | Event.add id side price qty t => (add_order b id side price qty t).2
  | Event.remove id t => (remove_order b id t).2
  | Event.amend id np nq t => (amend_order b id np nq t).2

/-- Run a sequence of calls from a state. -/
def runEvents (b : OrderBook) : List Event → OrderBook
  | [] => b
  | e :: es => runEvents (applyEvent b e) es

/-- States reachable from the empty book by some call sequence. -/
def Reachable (b : OrderBook) : Prop :=
  ∃ es : List Event, runEvents emptyBook es = b

/-- The timestamps of a trace are nondecreasing, starting from `T`. -/
def timesMono (T : Nat) : List Event → Prop
  | [] => True
  | e :: es => T ≤ e.time ∧ timesMono e.time es

/-- Well-formedness of the internal state.  All of this holds in every
reachable state (proved below); it is the conjunction of the global
invariants of spec §3 at the representation level. -/
structure WF (b : OrderBook) : Prop where
  lookup_nodup : (b.orders_by_id.map Prod.fst).Nodup
  heap_nodup : (b.heap.map Prod.fst).Nodup
  lookup_heap : ∀ id info, afind b.orders_by_id id = some info →
    ∃ o, afind b.heap id = some o ∧ o.id = id ∧ o.side = info.side ∧
      o.price = info.price
  heap_lookup : ∀ id o, afind b.heap id = some o →
    (afind b.orders_by_id id).isSome = true
  lookup_level : ∀ id info, afind b.orders_by_id id = some info →
    ∃ l, lfind (bookOf b info.side) info.price = some l ∧ id ∈ l
  keys_sorted : ∀ s,
    List.Pairwise (fun a c => keyLt s a c = true) ((bookOf b s).map Prod.fst)
  level_ok : ∀ s p l, (p, l) ∈ bookOf b s →
    l ≠ [] ∧ l.Nodup ∧ ∀ oid ∈ l, afind b.orders_by_id oid = some ⟨s, p⟩

/-- The `last_update_time`s of the orders `orders_at` hands back, in
sequence order. -/
def levelTimesAt (b : OrderBook) (s : Side) (p : Int) : List Nat :=
  (snapshots_at b s p).map Order.last_update_time

/-- Every price level is sorted by ascending `last_update_time`. -/
def TimeSortedAll (b : OrderBook) : Prop :=
  ∀ s p, List.Pairwise (fun a c : Nat => a ≤ c) (levelTimesAt b s p)

/-- Every live order's `last_update_time` is at most `T`. -/
def TimeBound (b : OrderBook) (T : Nat) : Prop :=
  ∀ k o, afind b.heap k = some o → o.last_update_time ≤ T

/-! ### Concrete example states (used to instantiate the general theorems) -/

/-- A small mixed trace: two bids at 50 (ids "1", "2"), one ask at 55. -/
def esW : List Event :=
  [Event.add "1" Side.Bid 50 400 0, Event.add "2" Side.Bid 50 300 1,
   Event.add "3" Side.Ask 55 200 2]

def bW : OrderBook := runEvents emptyBook esW

/-- One resting bid, before a mutation observed through an alias. -/
def bAlias : OrderBook := (add_order emptyBook "1" Side.Bid 50 400 0).2

/-- The same book after `amend_order("1", qty := 200)`. -/
def bAlias2 : OrderBook := (amend_order bAlias "1" none (some 200) 1).2

/-- A trace with decreasing explicit timestamps (10 then 5). -/
def esBack : List Event :=
  [Event.add "1" Side.Bid 50 400 10, Event.add "2" Side.Bid 50 300 5]

def bBack : OrderBook := runEvents emptyBook esBack

/-! ## Lemmas about the association-list primitives -/

theorem afind_eq_none_iff {α : Type} (m : List (String × α)) (k : String) :
    afind m k = none ↔ k ∉ m.map Prod.fst := by
  induction m with
  | nil => simp [afind]
  | cons e r ih =>
    by_cases h : e.1 = k <;> simp [afind, h, ih, Ne.symm]

theorem afind_isSome_iff {α : Type} (m : List (String × α)) (k : String) :
    (afind m k).isSome = true ↔ k ∈ m.map Prod.fst := by
  rw [Option.isSome_iff_ne_none, not_iff_comm, ← afind_eq_none_iff (m := m)]

theorem mem_of_afind {α : Type} {m : List (String × α)} {k : String} {v : α}
    (h : afind m k = some v) : (k, v) ∈ m := by
  induction m with
  | nil => simp [afind] at h
  | cons e r ih =>
    obtain ⟨a, w⟩ := e
    by_cases he : a = k
    · subst he
      have h' : w = v := by simpa [afind] using h
      subst h'
      exact List.mem_cons_self _ _
    · have h' : afind r k = some v := by simpa [afind, he] using h
      exact List.mem_cons_of_mem _ (ih h')

theorem afind_of_mem {α : Type} {m : List (String × α)} {k : String} {v : α}
    (hm : (k, v) ∈ m) (hnd : (m.map Prod.fst).Nodup) : afind m k = some v := by
  induction m with
  | nil => simp at hm
  | cons e r ih =>
    simp only [List.map_cons, List.nodup_cons] at hnd
    rcases List.mem_cons.mp hm with h | h
    · simp [afind, ← h]
    · have hk : e.1 ≠ k := by
        intro hek
        exact hnd.1 (hek ▸ (List.mem_map.mpr ⟨(k, v), h, rfl⟩))
      simp [afind, hk, ih h hnd.2]

theorem afind_append_left {α : Type} {m₁ : List (String × α)}
    (m₂ : List (String × α)) {k : String} {v : α}
    (h : afind m₁ k = some v) : afind (m₁ ++ m₂) k = some v := by
  induction m₁ with
  | nil => simp [afind] at h
  | cons e r ih =>
    by_cases he : e.1 = k <;> simp_all [afind, he]

theorem afind_append_right {α : Type} {m₁ : List (String × α)}
    (m₂ : List (String × α)) {k : String}
    (h : afind m₁ k = none) : afind (m₁ ++ m₂) k = afind m₂ k := by
  induction m₁ with
  | nil => simp
  | cons e r ih =>
    by_cases he : e.1 = k <;> simp_all [afind, he]

theorem afind_replace_self {α : Type} {m : List (String × α)} {k : String}
    (v : α) (h : (afind m k).isSome = true) :
    afind (m.map (fun e => if e.1 = k then (k, v) else e)) k = some v := by
  induction m with
  | nil => simp [afind] at h
  | cons e r ih =>
    by_cases he : e.1 = k
    · rw [List.map_cons, if_pos he, afind, if_pos rfl]
    · rw [afind, if_neg he] at h
      rw [List.map_cons, if_neg he, afind, if_neg he]
      exact ih h

theorem afind_replace_ne {α : Type} (m : List (String × α)) {k k' : String}
    (v : α) (h : k' ≠ k) :
    afind (m.map (fun e => if e.1 = k then (k, v) else e)) k' = afind m k' := by
  induction m with
  | nil => rfl
  | cons e r ih =>
    by_cases he : e.1 = k
    · rw [List.map_cons, if_pos he, afind, if_neg (Ne.symm h), afind,
        if_neg (he ▸ Ne.symm h : ¬ e.1 = k')]
      exact ih
    · by_cases he' : e.1 = k'
      · rw [List.map_cons, if_neg he, afind, if_pos he', afind, if_pos he']
      · rw [List.map_cons, if_neg he, afind, if_neg he', afind, if_neg he']
        exact ih

theorem afind_aupsert_self {α : Type} (m : List (String × α)) (k : String)
    (v : α) : afind (aupsert m k v) k = some v := by
  by_cases h : (afind m k).isSome = true
  · rw [aupsert, if_pos h]
    exact afind_replace_self v h
  · rw [aupsert, if_neg h]
    have hn : afind m k = none := by cases hh : afind m k <;> simp_all
    rw [afind_append_right _ hn, afind, if_pos rfl]

theorem afind_aupsert_ne {α : Type} (m : List (String × α)) {k k' : String}
    (v : α) (h : k' ≠ k) : afind (aupsert m k v) k' = afind m k' := by
  by_cases hs : (afind m k).isSome = true
  · rw [aupsert, if_pos hs]
    exact afind_replace_ne m v h
  · rw [aupsert, if_neg hs]
    cases hh : afind m k' with
    | some w => rw [afind_append_left _ hh]
    | none =>
      rw [afind_append_right _ hh, afind, if_neg (Ne.symm h)]
      rfl

theorem keys_aupsert_present {α : Type} {m : List (String × α)} {k : String}
    (v : α) (h : (afind m k).isSome = true) :
    (aupsert m k v).map Prod.fst = m.map Prod.fst := by
  rw [aupsert, if_pos h, List.map_map]
  apply List.map_congr_left
  intro e _
  by_cases he : e.1 = k <;> simp [he]

theorem keys_aupsert_absent {α : Type} {m : List (String × α)} {k : String}
    (v : α) (h : afind m k = none) :
    (aupsert m k v).map Prod.fst = m.map Prod.fst ++ [k] := by
  rw [aupsert, if_neg (by simp [h])]
  simp

theorem nodup_keys_aupsert {α : Type} {m : List (String × α)} (k : String)
    (v : α) (h : (m.map Prod.fst).Nodup) :
    ((aupsert m k v).map Prod.fst).Nodup := by
  by_cases hs : (afind m k).isSome
  · rw [keys_aupsert_present v hs]; exact h
  · have hn : afind m k = none := by cases hh : afind m k <;> simp_all
    rw [keys_aupsert_absent v hn]
    simp only [List.nodup_append, List.nodup_singleton]
    refine ⟨h, trivial, ?_⟩
    intro a ha hb
    simp only [List.mem_singleton] at hb
    subst hb
    exact ((afind_eq_none_iff m a).mp hn) ha

theorem afind_aerase_self {α : Type} (m : List (String × α)) (k : String) :
    afind (aerase m k) k = none := by
  induction m with
  | nil => simp [aerase, afind]
  | cons e r ih =>
    by_cases he : e.1 = k <;> simp_all [aerase, afind, he, List.filter]

theorem afind_aerase_ne {α : Type} (m : List (String × α)) {k k' : String}
    (h : k' ≠ k) : afind (aerase m k) k' = afind m k' := by
  induction m with
  | nil => simp [aerase]
  | cons e r ih =>
    by_cases he : e.1 = k
    · have : e.1 ≠ k' := by rw [he]; exact Ne.symm h
      simp_all [aerase, afind, he, this, List.filter]
    · by_cases he' : e.1 = k' <;> simp_all [aerase, afind, he, he', List.filter]

theorem aerase_sublist {α : Type} (m : List (String × α)) (k : String) :
    (aerase m k).Sublist m :=
  List.filter_sublist m

theorem nodup_keys_aerase {α : Type} {m : List (String × α)} (k : String)
    (h : (m.map Prod.fst).Nodup) : ((aerase m k).map Prod.fst).Nodup :=
  ((aerase_sublist m k).map Prod.fst).nodup h

/-! ## Lemmas about the sorted level-map primitives -/

theorem lfind_eq_none_iff (m : List (Int × List String)) (p : Int) :
    lfind m p = none ↔ p ∉ m.map Prod.fst := by
  induction m with
  | nil => simp [lfind]
  | cons e r ih =>
    by_cases h : e.1 = p <;> simp [lfind, h, ih, Ne.symm]

theorem lfind_isSome_iff (m : List (Int × List String)) (p : Int) :
    (lfind m p).isSome = true ↔ p ∈ m.map Prod.fst := by
  rw [Option.isSome_iff_ne_none, not_iff_comm, ← lfind_eq_none_iff (m := m)]

theorem mem_of_lfind {m : List (Int × List String)} {p : Int}
    {l : List String} (h : lfind m p = some l) : (p, l) ∈ m := by
  induction m with
  | nil => simp [lfind] at h
  | cons e r ih =>
    obtain ⟨a, w⟩ := e
    by_cases he : a = p
    · subst he
      have h' : w = l := by simpa [lfind] using h
      subst h'
      exact List.mem_cons_self _ _
    · have h' : lfind r p = some l := by simpa [lfind, he] using h
      exact List.mem_cons_of_mem _ (ih h')

theorem lfind_of_mem {m : List (Int × List String)} {p : Int}
    {l : List String} (hm : (p, l) ∈ m) (hnd : (m.map Prod.fst).Nodup) :
    lfind m p = some l := by
  induction m with
  | nil => simp at hm
  | cons e r ih =>
    simp only [List.map_cons, List.nodup_cons] at hnd
    rcases List.mem_cons.mp hm with h | h
    · simp [lfind, ← h]
    · have hk : e.1 ≠ p := by
        intro hek
        exact hnd.1 (hek ▸ (List.mem_map.mpr ⟨(p, l), h, rfl⟩))
      simp [lfind, hk, ih h hnd.2]

theorem lfind_lset_self {m : List (Int × List String)} {p : Int}
    (l : List String) (h : (lfind m p).isSome = true) :
    lfind (lset m p l) p = some l := by
  unfold lset
  induction m with
  | nil => simp [lfind] at h
  | cons e r ih =>
    by_cases he : e.1 = p
    · rw [List.map_cons, if_pos he, lfind, if_pos rfl]
    · rw [lfind, if_neg he] at h
      rw [List.map_cons, if_neg he, lfind, if_neg he]
      exact ih h

theorem lfind_lset_ne (m : List (Int × List String)) {p q : Int}
    (l : List String) (h : q ≠ p) : lfind (lset m p l) q = lfind m q := by
  unfold lset
  induction m with
  | nil => rfl
  | cons e r ih =>
    by_cases he : e.1 = p
    · have h1 : ¬ ((p, l) : Int × List String).1 = q := Ne.symm h
      have h2 : ¬ e.1 = q := by rw [he]; exact Ne.symm h
      rw [List.map_cons, if_pos he, lfind, if_neg h1, lfind, if_neg h2]
      exact ih
    · by_cases he' : e.1 = q
      · rw [List.map_cons, if_neg he, lfind, if_pos he', lfind, if_pos he']
      · rw [List.map_cons, if_neg he, lfind, if_neg he', lfind, if_neg he']
        exact ih

theorem keys_lset (m : List (Int × List String)) (p : Int) (l : List String) :
    (lset m p l).map Prod.fst = m.map Prod.fst := by
  unfold lset
  rw [List.map_map]
  apply List.map_congr_left
  intro e _
  by_cases he : e.1 = p <;> simp [he]

theorem mem_lset_elim {m : List (Int × List String)} {p : Int}
    {l : List String} {e : Int × List String} (h : e ∈ lset m p l) :
    e = (p, l) ∨ (e ∈ m ∧ e.1 ≠ p) := by
  unfold lset at h
  obtain ⟨e₀, he₀, heq⟩ := List.mem_map.mp h
  by_cases h0 : e₀.1 = p
  · left; simp [h0] at heq; exact heq.symm
  · right
    simp only [h0, if_false] at heq
    exact ⟨heq ▸ he₀, heq ▸ h0⟩

theorem lfind_lerase_self (m : List (Int × List String)) (p : Int) :
    lfind (lerase m p) p = none := by
  induction m with
  | nil => simp [lerase, lfind]
  | cons e r ih =>
    by_cases he : e.1 = p <;> simp_all [lerase, lfind, he, List.filter]

theorem lfind_lerase_ne (m : List (Int × List String)) {p q : Int}
    (h : q ≠ p) : lfind (lerase m p) q = lfind m q := by
  induction m with
  | nil => simp [lerase]
  | cons e r ih =>
    by_cases he : e.1 = p
    · have : e.1 ≠ q := by rw [he]; exact Ne.symm h
      simp_all [lerase, lfind, he, this, List.filter]
    · by_cases he' : e.1 = q <;> simp_all [lerase, lfind, he, he', List.filter]

theorem lerase_sublist (m : List (Int × List String)) (p : Int) :
    (lerase m p).Sublist m :=
  List.filter_sublist m

theorem mem_lerase_elim {m : List (Int × List String)} {p : Int}
    {e : Int × List String} (h : e ∈ lerase m p) : e ∈ m :=
  (lerase_sublist m p).mem h

theorem lfind_linsert_self (lt : Int → Int → Bool)
    {m : List (Int × List String)} {p : Int} (l : List String)
    (h : lfind m p = none) : lfind (linsert lt m p l) p = some l := by
  induction m with
  | nil => simp [linsert, lfind]
  | cons e r ih =>
    by_cases he : e.1 = p
    · simp [lfind, he] at h
    · simp only [lfind, he, if_false] at h
      by_cases hlt : lt p e.1 <;> simp [linsert, hlt, lfind, he, ih h]

theorem lfind_linsert_ne (lt : Int → Int → Bool)
    (m : List (Int × List String)) {p q : Int} (l : List String)
    (h : q ≠ p) : lfind (linsert lt m p l) q = lfind m q := by
  have h1 : ¬ ((p, l) : Int × List String).1 = q := Ne.symm h
  induction m with
  | nil =>
    simp [linsert, lfind, h1]
  | cons e r ih =>
    by_cases hlt : lt p e.1
    · rw [linsert, if_pos hlt, lfind, if_neg h1]
    · by_cases he : e.1 = q
      · rw [linsert, if_neg hlt, lfind, if_pos he, lfind, if_pos he]
      · rw [linsert, if_neg hlt, lfind, if_neg he, lfind, if_neg he]
        exact ih

theorem mem_keys_linsert (lt : Int → Int → Bool)
    (m : List (Int × List String)) (p q : Int) (l : List String) :
    q ∈ (linsert lt m p l).map Prod.fst ↔ q = p ∨ q ∈ m.map Prod.fst := by
  induction m with
  | nil => simp [linsert]
  | cons e r ih =>
    by_cases hlt : lt p e.1
    · rw [linsert, if_pos hlt]
      simp
    · rw [linsert, if_neg hlt]
      simp only [List.map_cons, List.mem_cons, ih]
      tauto

theorem mem_linsert_elim {lt : Int → Int → Bool}
    {m : List (Int × List String)} {p : Int} {l : List String}
    {e : Int × List String} (h : e ∈ linsert lt m p l) :
    e = (p, l) ∨ e ∈ m := by
  induction m with
  | nil => simpa [linsert] using h
  | cons e₀ r ih =>
    by_cases hlt : lt p e₀.1
    · rw [linsert, if_pos hlt] at h
      rcases List.mem_cons.mp h with h1 | h1
      · exact Or.inl h1
      · exact Or.inr h1
    · rw [linsert, if_neg hlt] at h
      rcases List.mem_cons.mp h with h1 | h1
      · exact Or.inr (List.mem_cons.mpr (Or.inl h1))
      · rcases ih h1 with h2 | h2
        · exact Or.inl h2
        · exact Or.inr (List.mem_cons.mpr (Or.inr h2))

theorem lfind_lpush_self (lt : Int → Int → Bool)
    (m : List (Int × List String)) (p : Int) (oid : String) :
    lfind (lpush lt m p oid) p = some ((lfind m p).getD [] ++ [oid]) := by
  unfold lpush
  cases h : lfind m p with
  | none =>
    rw [lfind_linsert_self lt [oid] h]
    rfl
  | some l =>
    rw [lfind_lset_self (l ++ [oid]) (by rw [h]; rfl)]
    rfl

theorem lfind_lpush_ne (lt : Int → Int → Bool)
    (m : List (Int × List String)) {p q : Int} (oid : String)
    (h : q ≠ p) : lfind (lpush lt m p oid) q = lfind m q := by
  unfold lpush
  cases hf : lfind m p with
  | none => exact lfind_linsert_ne lt m _ h
  | some l => exact lfind_lset_ne m _ h

theorem mem_lpush_elim {lt : Int → Int → Bool}
    {m : List (Int × List String)} {p : Int} {oid : String}
    {e : Int × List String} (h : e ∈ lpush lt m p oid) :
    e = (p, (lfind m p).getD [] ++ [oid]) ∨ (e ∈ m ∧ e.1 ≠ p) := by
  unfold lpush at h
  cases hf : lfind m p with
  | none =>
    rw [hf] at h
    rcases mem_linsert_elim h with h' | h'
    · left; simpa [hf] using h'
    · right
      refine ⟨h', ?_⟩
      intro hp
      have : p ∈ m.map Prod.fst := List.mem_map.mpr ⟨e, h', hp⟩
      exact (lfind_eq_none_iff m p).mp hf this
  | some l =>
    rw [hf] at h
    rcases mem_lset_elim h with h' | h'
    · left; simpa [hf] using h'
    · right; exact h'

/-! ## Side selection and comparator lemmas -/

theorem bookOf_setBook_self (b : OrderBook) (s : Side)
    (m : List (Int × List String)) : bookOf (setBook b s m) s = m := by
  cases s <;> rfl

theorem bookOf_setBook_ne (b : OrderBook) {s s' : Side}
    (m : List (Int × List String)) (h : s' ≠ s) :
    bookOf (setBook b s m) s' = bookOf b s' := by
  cases s <;> cases s' <;> first | rfl | exact absurd rfl h

theorem setBook_orders_by_id (b : OrderBook) (s : Side)
    (m : List (Int × List String)) :
    (setBook b s m).orders_by_id = b.orders_by_id := by
  cases s <;> rfl

theorem setBook_heap (b : OrderBook) (s : Side)
    (m : List (Int × List String)) : (setBook b s m).heap = b.heap := by
  cases s <;> rfl

theorem bookOf_update_lh (x : OrderBook) (L : List (String × OrderLookup))
    (H : List (String × Order)) (s : Side) :
    bookOf { x with orders_by_id := L, heap := H } s = bookOf x s := by
  cases s <;> rfl

theorem bookOf_update_h (x : OrderBook) (H : List (String × Order))
    (s : Side) : bookOf { x with heap := H } s = bookOf x s := by
  cases s <;> rfl

theorem keyLt_irrefl (s : Side) (a : Int) : keyLt s a a = false := by
  cases s <;> simp [keyLt]

theorem keyLt_ne {s : Side} {a b : Int} (h : keyLt s a b = true) : a ≠ b := by
  cases s <;> simp [keyLt] at h <;> omega

theorem keyLt_trans {s : Side} {a b c : Int} (h1 : keyLt s a b = true)
    (h2 : keyLt s b c = true) : keyLt s a c = true := by
  cases s <;> simp [keyLt] at h1 h2 ⊢ <;> omega

theorem keyLt_total {s : Side} {a b : Int} (h : a ≠ b) :
    keyLt s a b = true ∨ keyLt s b a = true := by
  cases s <;> simp [keyLt] <;> omega

/-! ## The data-model invariant (spec §3, "Global invariants") -/

theorem WF.book_keys_nodup {b : OrderBook} (w : WF b) (s : Side) :
    ((bookOf b s).map Prod.fst).Nodup := by
  refine (w.keys_sorted s).imp ?_
  intro a c h
  exact keyLt_ne h

theorem WF.lfind_of_level_mem {b : OrderBook} (w : WF b) {s : Side} {p : Int}
    {l : List String} (h : (p, l) ∈ bookOf b s) : lfind (bookOf b s) p = some l :=
  lfind_of_mem h (w.book_keys_nodup s)

theorem WF.level_of_lfind {b : OrderBook} (w : WF b) {s : Side} {p : Int}
    {l : List String} (h : lfind (bookOf b s) p = some l) :
    l ≠ [] ∧ l.Nodup ∧ ∀ oid ∈ l, afind b.orders_by_id oid = some ⟨s, p⟩ :=
  w.level_ok s p l (mem_of_lfind h)

theorem WF.emptyBook : WF emptyBook := by
  constructor
  · simp [ob.emptyBook]
  · simp [ob.emptyBook]
  · intro id info h
    simp [ob.emptyBook, afind] at h
  · intro id o h
    simp [ob.emptyBook, afind] at h
  · intro id info h
    simp [ob.emptyBook, afind] at h
  · intro s
    cases s <;> simp [ob.emptyBook, bookOf]
  · intro s p l h
    cases s <;> simp [ob.emptyBook, bookOf] at h

/-! ## Preservation of the invariant by the mutating operations -/

/-- `WF` only depends on the side maps and on the lookup tables viewed
through `afind` (plus key nodup-ness), so it transfers across
representation-equivalent states. -/
theorem WF.congr {b b' : OrderBook} (w : WF b)
    (hbk : ∀ s, bookOf b' s = bookOf b s)
    (hl : ∀ k, afind b'.orders_by_id k = afind b.orders_by_id k)
    (hh : ∀ k, afind b'.heap k = afind b.heap k)
    (hln : (b'.orders_by_id.map Prod.fst).Nodup)
    (hhn : (b'.heap.map Prod.fst).Nodup) : WF b' := by
  constructor
  · exact hln
  · exact hhn
  · intro id info h
    rw [hl] at h
    obtain ⟨o, ho, h1, h2, h3⟩ := w.lookup_heap id info h
    exact ⟨o, (hh id).trans ho, h1, h2, h3⟩
  · intro id o h
    rw [hh] at h
    rw [hl]
    exact w.heap_lookup id o h
  · intro id info h
    rw [hl] at h
    rw [hbk]
    exact w.lookup_level id info h
  · intro s
    rw [hbk]
    exact w.keys_sorted s
  · intro s p l hm
    rw [hbk] at hm
    obtain ⟨h1, h2, h3⟩ := w.level_ok s p l hm
    refine ⟨h1, h2, ?_⟩
    intro oid ho
    rw [hl]
    exact h3 oid ho

/-- Inserting an absent key keeps the side map's keys strictly sorted. -/
theorem pairwise_keys_linsert {s : Side} {m : List (Int × List String)}
    {p : Int} (l : List String) (hp : p ∉ m.map Prod.fst)
    (hs : List.Pairwise (fun a c => keyLt s a c = true) (m.map Prod.fst)) :
    List.Pairwise (fun a c => keyLt s a c = true)
      ((linsert (keyLt s) m p l).map Prod.fst) := by
  induction m with
  | nil => simp [linsert]
  | cons e r ih =>
    rw [List.map_cons, List.pairwise_cons] at hs
    rw [List.map_cons, List.mem_cons] at hp
    push_neg at hp
    by_cases hlt : keyLt s p e.1 = true
    · rw [linsert, if_pos hlt]
      simp only [List.map_cons]
      rw [List.pairwise_cons]
      constructor
      · intro a ha
        rcases List.mem_cons.mp ha with h | h
        · rw [h]; exact hlt
        · exact keyLt_trans hlt (hs.1 a h)
      · rw [List.pairwise_cons]
        exact hs
    · rw [linsert, if_neg hlt]
      simp only [List.map_cons]
      rw [List.pairwise_cons]
      constructor
      · intro a ha
        rw [mem_keys_linsert] at ha
        rcases ha with h | h
        · subst h
          rcases keyLt_total (Ne.symm hp.1) with h' | h'
          · exact h'
          · exact absurd h' hlt
        · exact hs.1 a h
      · exact ih hp.2 hs.2

/-- Projection helpers for the record-update states the operations build. -/
theorem update_lh_orders_by_id (x : OrderBook) (L : List (String × OrderLookup))
    (H : List (String × Order)) :
    ({ x with orders_by_id := L, heap := H } : OrderBook).orders_by_id = L := rfl

theorem update_lh_heap (x : OrderBook) (L : List (String × OrderLookup))
    (H : List (String × Order)) :
    ({ x with orders_by_id := L, heap := H } : OrderBook).heap = H := rfl

theorem update_h_heap (x : OrderBook) (H : List (String × Order)) :
    ({ x with heap := H } : OrderBook).heap = H := rfl

theorem update_h_orders_by_id (x : OrderBook) (H : List (String × Order)) :
    ({ x with heap := H } : OrderBook).orders_by_id = x.orders_by_id := rfl

/-- Attaching a fresh order `nid` (absent from the lookup table) at price `p`
on side `s` preserves the invariant.  This is the success path of
`add_order`, and — applied to the detached intermediate state — the
reinsertion half of a price-changing `amend_order`. -/
theorem wf_attach {b : OrderBook} (w : WF b) {nid : String} {s : Side}
    {p : Int} (o : Order) (hid : afind b.orders_by_id nid = none)
    (ho1 : o.id = nid) (ho2 : o.side = s) (ho3 : o.price = p) :
    WF { setBook b s (lpush (keyLt s) (bookOf b s) p nid) with
         orders_by_id := aupsert b.orders_by_id nid ⟨s, p⟩,
         heap := aupsert b.heap nid o } := by
  have hidh : afind b.heap nid = none := by
    cases hh : afind b.heap nid with
    | none => rfl
    | some o₀ =>
      have := w.heap_lookup nid o₀ hh
      rw [hid] at this
      simp at this
  have hmem : ∀ {s' : Side} {q : Int} {l : List String}, (q, l) ∈ bookOf b s' →
      nid ∉ l := by
    intro s' q l hql hmem
    have := (w.level_ok s' q l hql).2.2 nid hmem
    rw [hid] at this
    simp at this
  constructor
  · rw [update_lh_orders_by_id]
    exact nodup_keys_aupsert nid _ w.lookup_nodup
  · rw [update_lh_heap]
    exact nodup_keys_aupsert nid _ w.heap_nodup
  · intro id' info h
    rw [update_lh_orders_by_id] at h
    rw [update_lh_heap]
    by_cases he : id' = nid
    · rw [he] at h ⊢
      rw [afind_aupsert_self] at h
      obtain rfl : info = (⟨s, p⟩ : OrderLookup) := by
        injection h with h
        exact h.symm
      exact ⟨o, afind_aupsert_self _ _ _, ho1, ho2, ho3⟩
    · rw [afind_aupsert_ne _ _ he] at h
      obtain ⟨o₀, h0, h1, h2, h3⟩ := w.lookup_heap id' info h
      refine ⟨o₀, ?_, h1, h2, h3⟩
      rw [afind_aupsert_ne _ _ he]
      exact h0
  · intro id' o₀ h
    rw [update_lh_heap] at h
    rw [update_lh_orders_by_id]
    by_cases he : id' = nid
    · rw [he, afind_aupsert_self]
      rfl
    · rw [afind_aupsert_ne _ _ he] at h
      rw [afind_aupsert_ne _ _ he]
      exact w.heap_lookup id' o₀ h
  · intro id' info h
    rw [update_lh_orders_by_id] at h
    rw [bookOf_update_lh]
    by_cases he : id' = nid
    · rw [he] at h ⊢
      rw [afind_aupsert_self] at h
      obtain rfl : info = (⟨s, p⟩ : OrderLookup) := by
        injection h with h
        exact h.symm
      rw [bookOf_setBook_self]
      refine ⟨(lfind (bookOf b s) p).getD [] ++ [nid], ?_, ?_⟩
      · exact lfind_lpush_self _ _ _ _
      · exact List.mem_append_right _ (List.mem_singleton.mpr rfl)
    · rw [afind_aupsert_ne _ _ he] at h
      obtain ⟨l, hlf, hmem'⟩ := w.lookup_level id' info h
      by_cases hside : info.side = s
      · rw [hside] at hlf ⊢
        rw [bookOf_setBook_self]
        by_cases hprice : info.price = p
        · rw [hprice] at hlf ⊢
          refine ⟨(lfind (bookOf b s) p).getD [] ++ [nid], ?_, ?_⟩
          · exact lfind_lpush_self _ _ _ _
          · rw [hlf]
            exact List.mem_append_left _ hmem'
        · refine ⟨l, ?_, hmem'⟩
          rw [lfind_lpush_ne _ _ _ hprice]
          exact hlf
      · rw [bookOf_setBook_ne _ _ hside]
        exact ⟨l, hlf, hmem'⟩
  · intro s'
    rw [bookOf_update_lh]
    by_cases hside : s' = s
    · subst hside
      rw [bookOf_setBook_self]
      unfold lpush
      cases hf : lfind (bookOf b s') p with
      | some l =>
        rw [keys_lset]
        exact w.keys_sorted s'
      | none =>
        exact pairwise_keys_linsert [nid]
          ((lfind_eq_none_iff _ _).mp hf) (w.keys_sorted s')
    · rw [bookOf_setBook_ne _ _ hside]
      exact w.keys_sorted s'
  · intro s' q l hm
    rw [bookOf_update_lh] at hm
    by_cases hside : s' = s
    · subst hside
      rw [bookOf_setBook_self] at hm
      rcases mem_lpush_elim hm with hcase | hcase
      · have hq : q = p := congrArg Prod.fst hcase
        have hval : l = (lfind (bookOf b s') p).getD [] ++ [nid] :=
          congrArg Prod.snd hcase
        subst hq
        subst hval
        cases hf : lfind (bookOf b s') q with
        | none =>
          rw [update_lh_orders_by_id]
          simp only [hf, Option.getD_none, List.nil_append]
          refine ⟨by simp, List.nodup_singleton nid, ?_⟩
          intro oid ho
          rw [List.mem_singleton] at ho
          subst ho
          exact afind_aupsert_self _ _ _
        | some l₀ =>
          rw [update_lh_orders_by_id]
          simp only [hf, Option.getD_some]
          have hl₀ := w.level_of_lfind hf
          have hid₀ : nid ∉ l₀ := hmem (mem_of_lfind hf)
          refine ⟨by simp, ?_, ?_⟩
          · rw [List.nodup_append]
            refine ⟨hl₀.2.1, List.nodup_singleton nid, ?_⟩
            intro a ha hb
            rw [List.mem_singleton] at hb
            subst hb
            exact hid₀ ha
          · intro oid ho
            rcases List.mem_append.mp ho with ho' | ho'
            · have hne : oid ≠ nid := fun hh => hid₀ (hh ▸ ho')
              rw [afind_aupsert_ne _ _ hne]
              exact hl₀.2.2 oid ho'
            · rw [List.mem_singleton] at ho'
              subst ho'
              exact afind_aupsert_self _ _ _
      · obtain ⟨hmem', hne⟩ := hcase
        obtain ⟨h1, h2, h3⟩ := w.level_ok s' q l hmem'
        refine ⟨h1, h2, ?_⟩
        intro oid ho
        have hno : oid ≠ nid := fun hh => hmem hmem' (hh ▸ ho)
        rw [update_lh_orders_by_id, afind_aupsert_ne _ _ hno]
        exact h3 oid ho
    · rw [bookOf_setBook_ne _ _ hside] at hm
      obtain ⟨h1, h2, h3⟩ := w.level_ok s' q l hm
      refine ⟨h1, h2, ?_⟩
      intro oid ho
      have hno : oid ≠ nid := fun hh => hmem hm (hh ▸ ho)
      rw [update_lh_orders_by_id, afind_aupsert_ne _ _ hno]
      exact h3 oid ho

/-- Detaching an active order `rid` from its level (dropping the level when
it empties) and erasing it from lookup and heap preserves the invariant.
This is the success path of `remove_order`, and the removal half of a
price-changing `amend_order`. -/
theorem wf_detach {b : OrderBook} (w : WF b) {rid : String}
    {info : OrderLookup} (hid : afind b.orders_by_id rid = some info)
    {l : List String} (hl : lfind (bookOf b info.side) info.price = some l) :
    WF { setBook b info.side
           (if l.erase rid = [] then lerase (bookOf b info.side) info.price
            else lset (bookOf b info.side) info.price (l.erase rid)) with
         orders_by_id := aerase b.orders_by_id rid,
         heap := aerase b.heap rid } := by
  have hlv := w.level_of_lfind hl
  have hother : ∀ {s' : Side} {q : Int} {l' : List String},
      (q, l') ∈ bookOf b s' → ¬(s' = info.side ∧ q = info.price) →
      rid ∉ l' := by
    intro s' q l' hql hne hmem
    have h := (w.level_ok s' q l' hql).2.2 rid hmem
    rw [hid] at h
    injection h with h
    exact hne ⟨congrArg OrderLookup.side h.symm, congrArg OrderLookup.price h.symm⟩
  constructor
  · rw [update_lh_orders_by_id]
    exact nodup_keys_aerase rid w.lookup_nodup
  · rw [update_lh_heap]
    exact nodup_keys_aerase rid w.heap_nodup
  · intro id' info' h
    rw [update_lh_orders_by_id] at h
    rw [update_lh_heap]
    by_cases he : id' = rid
    · rw [he, afind_aerase_self] at h
      exact absurd h (by simp)
    · rw [afind_aerase_ne _ he] at h
      obtain ⟨o₀, h0, h1, h2, h3⟩ := w.lookup_heap id' info' h
      refine ⟨o₀, ?_, h1, h2, h3⟩
      rw [afind_aerase_ne _ he]
      exact h0
  · intro id' o₀ h
    rw [update_lh_heap] at h
    rw [update_lh_orders_by_id]
    by_cases he : id' = rid
    · rw [he, afind_aerase_self] at h
      exact absurd h (by simp)
    · rw [afind_aerase_ne _ he] at h
      rw [afind_aerase_ne _ he]
      exact w.heap_lookup id' o₀ h
  · intro id' info' h
    rw [update_lh_orders_by_id] at h
    rw [bookOf_update_lh]
    by_cases he : id' = rid
    · rw [he, afind_aerase_self] at h
      exact absurd h (by simp)
    · rw [afind_aerase_ne _ he] at h
      obtain ⟨l', hlf, hmem'⟩ := w.lookup_level id' info' h
      by_cases hside : info'.side = info.side
      · rw [hside] at hlf ⊢
        rw [bookOf_setBook_self]
        by_cases hprice : info'.price = info.price
        · rw [hprice] at hlf ⊢
          have hll : l' = l := by
            rw [hl] at hlf
            injection hlf with hlf
            exact hlf.symm
          subst hll
          have hm2 : id' ∈ l'.erase rid :=
            (List.mem_erase_of_ne he).mpr hmem'
          have hne2 : ¬ l'.erase rid = [] := by
            intro hnil
            rw [hnil] at hm2
            simp at hm2
          rw [if_neg hne2]
          refine ⟨l'.erase rid, ?_, hm2⟩
          exact lfind_lset_self _ (by rw [hl]; rfl)
        · refine ⟨l', ?_, hmem'⟩
          by_cases hnil : l.erase rid = []
          · rw [if_pos hnil, lfind_lerase_ne _ hprice]
            exact hlf
          · rw [if_neg hnil, lfind_lset_ne _ _ hprice]
            exact hlf
      · rw [bookOf_setBook_ne _ _ hside]
        exact ⟨l', hlf, hmem'⟩
  · intro s'
    rw [bookOf_update_lh]
    by_cases hside : s' = info.side
    · rw [hside, bookOf_setBook_self]
      by_cases hnil : l.erase rid = []
      · rw [if_pos hnil]
        exact (w.keys_sorted info.side).sublist ((lerase_sublist _ _).map Prod.fst)
      · rw [if_neg hnil, keys_lset]
        exact w.keys_sorted info.side
    · rw [bookOf_setBook_ne _ _ hside]
      exact w.keys_sorted s'
  · intro s' q l' hm
    rw [bookOf_update_lh] at hm
    rw [update_lh_orders_by_id]
    by_cases hside : s' = info.side
    · rw [hside] at hm ⊢
      rw [bookOf_setBook_self] at hm
      by_cases hnil : l.erase rid = []
      · rw [if_pos hnil] at hm
        have hmm := mem_lerase_elim hm
        have hq : q ≠ info.price := by
          intro hqe
          have hm' : (q, l') ∈ (bookOf b info.side).filter
              (fun e => decide (e.1 ≠ info.price)) := hm
          have hdec := List.of_mem_filter hm'
          rw [hqe] at hdec
          simp at hdec
        obtain ⟨h1, h2, h3⟩ := w.level_ok info.side q l' hmm
        refine ⟨h1, h2, ?_⟩
        intro oid ho
        have hno : oid ≠ rid := fun hh =>
          hother hmm (fun hc => hq hc.2) (hh ▸ ho)
        rw [afind_aerase_ne _ hno]
        exact h3 oid ho
      · rw [if_neg hnil] at hm
        rcases mem_lset_elim hm with hcase | hcase
        · have hq : q = info.price := congrArg Prod.fst hcase
          have hval : l' = l.erase rid := congrArg Prod.snd hcase
          subst hq
          subst hval
          refine ⟨hnil, hlv.2.1.erase rid, ?_⟩
          intro oid ho
          have hol : oid ∈ l := List.mem_of_mem_erase ho
          have hno : oid ≠ rid := by
            intro hh
            subst hh
            exact hlv.2.1.not_mem_erase ho
          rw [afind_aerase_ne _ hno]
          exact hlv.2.2 oid hol
        · obtain ⟨hmm, hne⟩ := hcase
          obtain ⟨h1, h2, h3⟩ := w.level_ok info.side q l' hmm
          refine ⟨h1, h2, ?_⟩
          intro oid ho
          have hno : oid ≠ rid := fun hh =>
            hother hmm (fun hc => hne hc.2) (hh ▸ ho)
          rw [afind_aerase_ne _ hno]
          exact h3 oid ho
    · rw [bookOf_setBook_ne _ _ hside] at hm
      obtain ⟨h1, h2, h3⟩ := w.level_ok s' q l' hm
      refine ⟨h1, h2, ?_⟩
      intro oid ho
      have hno : oid ≠ rid := fun hh =>
        hother hm (fun hc => hside hc.1) (hh ▸ ho)
      rw [afind_aerase_ne _ hno]
      exact h3 oid ho

/-- Updating an active order's heap object without changing its id, side or
price (the quantity-only amends) preserves the invariant. -/
theorem wf_update_order {b : OrderBook} (w : WF b) {uid : String}
    {o o' : Order} (ho : afind b.heap uid = some o) (h1 : o'.id = o.id)
    (h2 : o'.side = o.side) (h3 : o'.price = o.price) :
    WF { b with heap := aupsert b.heap uid o' } := by
  constructor
  · rw [update_h_orders_by_id]
    exact w.lookup_nodup
  · rw [update_h_heap]
    rw [keys_aupsert_present o' (by rw [ho]; rfl)]
    exact w.heap_nodup
  · intro id' info h
    rw [update_h_orders_by_id] at h
    rw [update_h_heap]
    obtain ⟨o₀, h0, f1, f2, f3⟩ := w.lookup_heap id' info h
    by_cases he : id' = uid
    · subst he
      have : o₀ = o := by
        rw [ho] at h0
        injection h0 with h0
        exact h0.symm
      subst this
      refine ⟨o', ?_, ?_, ?_, ?_⟩
      · exact afind_aupsert_self _ _ _
      · rw [h1, f1]
      · rw [h2, f2]
      · rw [h3, f3]
    · refine ⟨o₀, ?_, f1, f2, f3⟩
      rw [afind_aupsert_ne _ _ he]
      exact h0
  · intro id' o₀ h
    rw [update_h_heap] at h
    rw [update_h_orders_by_id]
    by_cases he : id' = uid
    · subst he
      exact w.heap_lookup id' o ho
    · rw [afind_aupsert_ne _ _ he] at h
      exact w.heap_lookup id' o₀ h
  · intro id' info h
    rw [update_h_orders_by_id] at h
    have hbk : ∀ s, bookOf { b with heap := aupsert b.heap uid o' } s =
        bookOf b s := fun s => bookOf_update_h b _ s
    rw [hbk]
    exact w.lookup_level id' info h
  · intro s
    rw [bookOf_update_h]
    exact w.keys_sorted s
  · intro s p l hm
    rw [bookOf_update_h] at hm
    rw [update_h_orders_by_id]
    exact w.level_ok s p l hm

/-- Moving an active order to the back of its own (unchanged) price level
while rewriting its lookup entry with the same value and updating its heap
object without changing id/side/price preserves the invariant.  This is the
quantity-increase path of `amend_order`. -/
theorem wf_move_back {b : OrderBook} (w : WF b) {mid : String}
    {info : OrderLookup} (hid : afind b.orders_by_id mid = some info)
    {l : List String} (hl : lfind (bookOf b info.side) info.price = some l)
    {o o' : Order} (ho : afind b.heap mid = some o) (h1 : o'.id = o.id)
    (h2 : o'.side = o.side) (h3 : o'.price = o.price) :
    WF { setBook b info.side
           (lset (bookOf b info.side) info.price (l.erase mid ++ [mid])) with
         orders_by_id := aupsert b.orders_by_id mid ⟨info.side, info.price⟩,
         heap := aupsert b.heap mid o' } := by
  have hlv := w.level_of_lfind hl
  have hmid : mid ∈ l := by
    obtain ⟨l₀, hlf₀, hm₀⟩ := w.lookup_level mid info hid
    rw [hl] at hlf₀
    injection hlf₀ with hlf₀
    exact hlf₀ ▸ hm₀
  have hinfo_eta : (⟨info.side, info.price⟩ : OrderLookup) = info := rfl
  have hups : ∀ k, afind (aupsert b.orders_by_id mid ⟨info.side, info.price⟩) k =
      afind b.orders_by_id k := by
    intro k
    by_cases he : k = mid
    · rw [he, afind_aupsert_self, hinfo_eta, hid]
    · rw [afind_aupsert_ne _ _ he]
  constructor
  · rw [update_lh_orders_by_id]
    rw [keys_aupsert_present _ (by rw [hid]; rfl)]
    exact w.lookup_nodup
  · rw [update_lh_heap]
    rw [keys_aupsert_present o' (by rw [ho]; rfl)]
    exact w.heap_nodup
  · intro id' info' h
    rw [update_lh_orders_by_id, hups] at h
    rw [update_lh_heap]
    obtain ⟨o₀, h0, f1, f2, f3⟩ := w.lookup_heap id' info' h
    by_cases he : id' = mid
    · subst he
      have : o₀ = o := by
        rw [ho] at h0
        injection h0 with h0
        exact h0.symm
      subst this
      refine ⟨o', afind_aupsert_self _ _ _, by rw [h1, f1], by rw [h2, f2],
        by rw [h3, f3]⟩
    · refine ⟨o₀, ?_, f1, f2, f3⟩
      rw [afind_aupsert_ne _ _ he]
      exact h0
  · intro id' o₀ h
    rw [update_lh_heap] at h
    rw [update_lh_orders_by_id, hups]
    by_cases he : id' = mid
    · subst he
      rw [hid]
      rfl
    · rw [afind_aupsert_ne _ _ he] at h
      exact w.heap_lookup id' o₀ h
  · intro id' info' h
    rw [update_lh_orders_by_id, hups] at h
    rw [bookOf_update_lh]
    by_cases he : id' = mid
    · subst he
      have : info' = info := by
        rw [hid] at h
        injection h with h
        exact h.symm
      subst this
      rw [bookOf_setBook_self]
      refine ⟨l.erase id' ++ [id'], ?_, List.mem_append_right _ (by simp)⟩
      exact lfind_lset_self _ (by rw [hl]; rfl)
    · obtain ⟨l', hlf, hmem'⟩ := w.lookup_level id' info' h
      by_cases hside : info'.side = info.side
      · rw [hside] at hlf ⊢
        rw [bookOf_setBook_self]
        by_cases hprice : info'.price = info.price
        · rw [hprice] at hlf ⊢
          have hll : l' = l := by
            rw [hl] at hlf
            injection hlf with hlf
            exact hlf.symm
          subst hll
          refine ⟨l'.erase mid ++ [mid], ?_, ?_⟩
          · exact lfind_lset_self _ (by rw [hl]; rfl)
          · exact List.mem_append_left _ ((List.mem_erase_of_ne he).mpr hmem')
        · refine ⟨l', ?_, hmem'⟩
          rw [lfind_lset_ne _ _ hprice]
          exact hlf
      · rw [bookOf_setBook_ne _ _ hside]
        exact ⟨l', hlf, hmem'⟩
  · intro s'
    rw [bookOf_update_lh]
    by_cases hside : s' = info.side
    · rw [hside, bookOf_setBook_self, keys_lset]
      exact w.keys_sorted info.side
    · rw [bookOf_setBook_ne _ _ hside]
      exact w.keys_sorted s'
  · intro s' q l' hm
    rw [bookOf_update_lh] at hm
    rw [update_lh_orders_by_id]
    by_cases hside : s' = info.side
    · rw [hside] at hm ⊢
      rw [bookOf_setBook_self] at hm
      rcases mem_lset_elim hm with hcase | hcase
      · have hq : q = info.price := congrArg Prod.fst hcase
        have hval : l' = l.erase mid ++ [mid] := congrArg Prod.snd hcase
        subst hq
        subst hval
        refine ⟨by simp, ?_, ?_⟩
        · rw [List.nodup_append]
          refine ⟨hlv.2.1.erase mid, List.nodup_singleton mid, ?_⟩
          intro a ha hb
          rw [List.mem_singleton] at hb
          subst hb
          exact hlv.2.1.not_mem_erase ha
        · intro oid ho
          rw [hups]
          rcases List.mem_append.mp ho with ho' | ho'
          · exact hlv.2.2 oid (List.mem_of_mem_erase ho')
          · rw [List.mem_singleton] at ho'
            subst ho'
            rw [hid, hinfo_eta]
      · obtain ⟨hmm, hne⟩ := hcase
        obtain ⟨f1, f2, f3⟩ := w.level_ok info.side q l' hmm
        refine ⟨f1, f2, ?_⟩
        intro oid ho
        rw [hups]
        exact f3 oid ho
    · rw [bookOf_setBook_ne _ _ hside] at hm
      obtain ⟨f1, f2, f3⟩ := w.level_ok s' q l' hm
      refine ⟨f1, f2, ?_⟩
      intro oid ho
      rw [hups]
      exact f3 oid ho

/-! ## Characterization of each operation's branches -/

theorem add_order_dup {b : OrderBook} {id : String}
    (h : (afind b.orders_by_id id).isSome = true) (s : Side) (p : Int)
    (q t : Nat) : add_order b id s p q t = (false, b) := by
  rw [add_order, if_pos h]

theorem add_order_ok {b : OrderBook} {id : String}
    (h : afind b.orders_by_id id = none) (s : Side) (p : Int) (q t : Nat) :
    add_order b id s p q t =
      (true, { setBook b s (lpush (keyLt s) (bookOf b s) p id) with
               orders_by_id := aupsert b.orders_by_id id ⟨s, p⟩,
               heap := aupsert b.heap id
                 ({ id := id, side := s, price := p, quantity := q,
                    creation_time := t, last_update_time := t,
                    last_txn := ⟨TxnType.Add, t⟩ } : Order) }) := by
  rw [add_order, if_neg (by rw [h]; simp)]

theorem remove_order_not_found {b : OrderBook} {id : String}
    (h : afind b.orders_by_id id = none) (t : Nat) :
    remove_order b id t = (false, b) := by
  rw [remove_order, h]

theorem remove_order_nolevel {b : OrderBook} {id : String}
    {info : OrderLookup} (h : afind b.orders_by_id id = some info)
    (hl : lfind (bookOf b info.side) info.price = none) (t : Nat) :
    remove_order b id t = (false, b) := by
  rw [remove_order, h]
  simp only [hl]

theorem remove_order_ok {b : OrderBook} {id : String} {info : OrderLookup}
    (h : afind b.orders_by_id id = some info) {l : List String}
    (hl : lfind (bookOf b info.side) info.price = some l) (t : Nat) :
    remove_order b id t =
      (true, { setBook b info.side
                 (if l.erase id = [] then lerase (bookOf b info.side) info.price
                  else lset (bookOf b info.side) info.price (l.erase id)) with
               orders_by_id := aerase b.orders_by_id id,
               heap := aerase b.heap id }) := by
  rw [remove_order, h]
  simp only [hl]

theorem amend_order_not_found {b : OrderBook} {id : String}
    (h : afind b.orders_by_id id = none) (np : Option Int) (nq : Option Nat)
    (t : Nat) : amend_order b id np nq t = (false, b) := by
  rw [amend_order, h]

theorem amend_order_null {b : OrderBook} {id : String} {info : OrderLookup}
    (h : afind b.orders_by_id id = some info)
    (ho : afind b.heap id = none) (np : Option Int) (nq : Option Nat)
    (t : Nat) : amend_order b id np nq t = (false, b) := by
  rw [amend_order, h]
  simp only [ho]

/-- The amend no-op: price omitted or equal, quantity omitted or equal. -/
theorem amend_order_noop {b : OrderBook} {id : String} {info : OrderLookup}
    (h : afind b.orders_by_id id = some info) {o : Order}
    (ho : afind b.heap id = some o) {np : Option Int} {nq : Option Nat}
    (hnp : np = none ∨ np = some info.price)
    (hnq : nq = none ∨ nq = some o.quantity) (t : Nat) :
    amend_order b id np nq t = (false, b) := by
  rw [amend_order, h]
  simp only [ho]
  rcases hnp with hnp | hnp <;> rcases hnq with hnq | hnq <;>
    subst hnp <;> subst hnq <;> simp

/-- The quantity-decrease path: priority (and `last_update_time`) kept. -/
theorem amend_order_decrease {b : OrderBook} {id : String}
    {info : OrderLookup} (h : afind b.orders_by_id id = some info) {o : Order}
    (ho : afind b.heap id = some o) {np : Option Int}
    (hnp : np = none ∨ np = some info.price) {v : Nat}
    (hv : v < o.quantity) (t : Nat) :
    amend_order b id np (some v) t =
      (true, { b with heap := aupsert b.heap id
                        ({ o with quantity := v,
                                  last_txn := ⟨TxnType.Amend, t⟩ } : Order) }) := by
  rw [amend_order, h]
  have hne : v ≠ o.quantity := Nat.ne_of_lt hv
  rcases hnp with hnp | hnp <;> subst hnp <;> simp [ho, hne, hv]

/-- The quantity-increase path: detach and re-append at the level's tail. -/
theorem amend_order_increase {b : OrderBook} {id : String}
    {info : OrderLookup} (h : afind b.orders_by_id id = some info) {o : Order}
    (ho : afind b.heap id = some o) {np : Option Int}
    (hnp : np = none ∨ np = some info.price) {v : Nat}
    (hv : o.quantity < v) {l : List String}
    (hl : lfind (bookOf b info.side) info.price = some l) (t : Nat) :
    amend_order b id np (some v) t =
      (true, { setBook b info.side
                 (lset (bookOf b info.side) info.price (l.erase id ++ [id])) with
               orders_by_id := aupsert b.orders_by_id id ⟨info.side, info.price⟩,
               heap := aupsert b.heap id
                 ({ o with quantity := v, last_update_time := t,
                           last_txn := ⟨TxnType.Amend, t⟩ } : Order) }) := by
  rw [amend_order, h]
  have hne : v ≠ o.quantity := Nat.ne_of_gt hv
  have hnlt : ¬ v < o.quantity := Nat.not_lt_of_gt hv
  rcases hnp with hnp | hnp <;> subst hnp <;> simp [ho, hne, hnlt, hl]

/-- The price-change path: detach from the old level (dropping it if
empty), update the order, and append at the tail of the new level. -/
theorem amend_order_price_change {b : OrderBook} {id : String}
    {info : OrderLookup} (h : afind b.orders_by_id id = some info) {o : Order}
    (ho : afind b.heap id = some o) {v : Int} (hv : v ≠ info.price)
    {l : List String} (hl : lfind (bookOf b info.side) info.price = some l)
    (nq : Option Nat) (t : Nat) :
    amend_order b id (some v) nq t =
      (true, { setBook b info.side
                 (lpush (keyLt info.side)
                   (if l.erase id = []
                    then lerase (bookOf b info.side) info.price
                    else lset (bookOf b info.side) info.price (l.erase id))
                   v id) with
               orders_by_id := aupsert b.orders_by_id id ⟨info.side, v⟩,
               heap := aupsert b.heap id
                 ({ o with price := v, quantity := nq.getD o.quantity,
                           last_update_time := t,
                           last_txn := ⟨TxnType.Amend, t⟩ } : Order) }) := by
  rw [amend_order, h]
  simp [ho, hv, hl]

/-- The price-change path when the old level is (impossibly) missing: the
erase is silently skipped. -/
theorem amend_order_price_change_nolevel {b : OrderBook} {id : String}
    {info : OrderLookup} (h : afind b.orders_by_id id = some info) {o : Order}
    (ho : afind b.heap id = some o) {v : Int} (hv : v ≠ info.price)
    (hl : lfind (bookOf b info.side) info.price = none)
    (nq : Option Nat) (t : Nat) :
    amend_order b id (some v) nq t =
      (true, { setBook b info.side
                 (lpush (keyLt info.side) (bookOf b info.side) v id) with
               orders_by_id := aupsert b.orders_by_id id ⟨info.side, v⟩,
               heap := aupsert b.heap id
                 ({ o with price := v, quantity := nq.getD o.quantity,
                           last_update_time := t,
                           last_txn := ⟨TxnType.Amend, t⟩ } : Order) }) := by
  rw [amend_order, h]
  simp [ho, hv, hl]

/-- The quantity-increase path when the level is (impossibly) missing. -/
theorem amend_order_increase_nolevel {b : OrderBook} {id : String}
    {info : OrderLookup} (h : afind b.orders_by_id id = some info) {o : Order}
    (ho : afind b.heap id = some o) {np : Option Int}
    (hnp : np = none ∨ np = some info.price) {v : Nat}
    (hv : o.quantity < v)
    (hl : lfind (bookOf b info.side) info.price = none) (t : Nat) :
    amend_order b id np (some v) t = (false, b) := by
  rw [amend_order, h]
  have hne : v ≠ o.quantity := Nat.ne_of_gt hv
  have hnlt : ¬ v < o.quantity := Nat.not_lt_of_gt hv
  rcases hnp with hnp | hnp <;> subst hnp <;> simp [ho, hne, hnlt, hl]

/-! ## The invariant holds in every reachable state -/

theorem wf_add {b : OrderBook} (w : WF b) (id : String) (s : Side) (p : Int)
    (q t : Nat) : WF (add_order b id s p q t).2 := by
  cases hid : afind b.orders_by_id id with
  | some info =>
    rw [add_order_dup (by rw [hid]; rfl) s p q t]
    exact w
  | none =>
    rw [add_order_ok hid s p q t]
    exact wf_attach w _ hid rfl rfl rfl

theorem wf_remove {b : OrderBook} (w : WF b) (id : String) (t : Nat) :
    WF (remove_order b id t).2 := by
  cases hid : afind b.orders_by_id id with
  | none =>
    rw [remove_order_not_found hid t]
    exact w
  | some info =>
    cases hl : lfind (bookOf b info.side) info.price with
    | none =>
      rw [remove_order_nolevel hid hl t]
      exact w
    | some l =>
      rw [remove_order_ok hid hl t]
      exact wf_detach w hid hl

/-- Preservation for an amend whose price argument is absent or equal to the
current price (the three same-price branches). -/
theorem wf_amend_same {b : OrderBook} (w : WF b) {id : String}
    {info : OrderLookup} (hid : afind b.orders_by_id id = some info)
    {o : Order} (ho : afind b.heap id = some o) {np : Option Int}
    (hnp : np = none ∨ np = some info.price) (nq : Option Nat) (t : Nat) :
    WF (amend_order b id np nq t).2 := by
  obtain ⟨l, hl, hmem⟩ := w.lookup_level id info hid
  cases nq with
  | none =>
    rw [amend_order_noop hid ho hnp (Or.inl rfl) t]
    exact w
  | some v =>
    rcases Nat.lt_trichotomy v o.quantity with hv | hv | hv
    · rw [amend_order_decrease hid ho hnp hv t]
      exact wf_update_order w ho rfl rfl rfl
    · rw [hv, amend_order_noop hid ho hnp (Or.inr rfl) t]
      exact w
    · rw [amend_order_increase hid ho hnp hv hl t]
      exact wf_move_back w hid hl ho rfl rfl rfl

theorem wf_amend {b : OrderBook} (w : WF b) (id : String) (np : Option Int)
    (nq : Option Nat) (t : Nat) : WF (amend_order b id np nq t).2 := by
  cases hid : afind b.orders_by_id id with
  | none =>
    rw [amend_order_not_found hid np nq t]
    exact w
  | some info =>
    cases ho : afind b.heap id with
    | none =>
      rw [amend_order_null hid ho np nq t]
      exact w
    | some o =>
      obtain ⟨o₀, ho₀, f1, f2, f3⟩ := w.lookup_heap id info hid
      have hoo : o₀ = o := by
        rw [ho] at ho₀
        injection ho₀ with e
        exact e.symm
      rw [hoo] at f1 f2 f3
      obtain ⟨l, hl, hmem⟩ := w.lookup_level id info hid
      cases np with
      | none => exact wf_amend_same w hid ho (Or.inl rfl) nq t
      | some v =>
        by_cases hvp : v = info.price
        · subst hvp
          exact wf_amend_same w hid ho (Or.inr rfl) nq t
        · rw [amend_order_price_change hid ho hvp hl nq t]
          have wD := wf_detach w hid hl
          have hidD : afind ({ setBook b info.side
              (if l.erase id = [] then lerase (bookOf b info.side) info.price
               else lset (bookOf b info.side) info.price (l.erase id)) with
              orders_by_id := aerase b.orders_by_id id,
              heap := aerase b.heap id } : OrderBook).orders_by_id id = none := by
            rw [update_lh_orders_by_id]
            exact afind_aerase_self _ _
          have wA := wf_attach wD
            ({ o with price := v, quantity := nq.getD o.quantity,
                      last_update_time := t,
                      last_txn := ⟨TxnType.Amend, t⟩ } : Order)
            hidD f1 f2 rfl
          refine WF.congr wA ?_ ?_ ?_ ?_ ?_
          · intro s'
            by_cases hs : s' = info.side
            · simp only [hs, bookOf_update_lh, bookOf_setBook_self]
            · simp only [bookOf_update_lh, bookOf_setBook_ne _ _ hs]
          · intro k
            simp only [update_lh_orders_by_id]
            by_cases hk : k = id
            · rw [hk, afind_aupsert_self, afind_aupsert_self]
            · rw [afind_aupsert_ne _ _ hk, afind_aupsert_ne _ _ hk,
                afind_aerase_ne _ hk]
          · intro k
            simp only [update_lh_heap]
            by_cases hk : k = id
            · rw [hk, afind_aupsert_self, afind_aupsert_self]
            · rw [afind_aupsert_ne _ _ hk, afind_aupsert_ne _ _ hk,
                afind_aerase_ne _ hk]
          · simp only [update_lh_orders_by_id]
            rw [keys_aupsert_present _ (by rw [hid]; rfl)]
            exact w.lookup_nodup
          · simp only [update_lh_heap]
            rw [keys_aupsert_present _ (by rw [ho]; rfl)]
            exact w.heap_nodup

theorem wf_applyEvent {b : OrderBook} (w : WF b) (e : Event) :
    WF (applyEvent b e) := by
  cases e with
  | add id side price qty t => exact wf_add w id side price qty t
  | remove id t => exact wf_remove w id t
  | amend id np nq t => exact wf_amend w id np nq t

theorem wf_runEvents {b : OrderBook} (w : WF b) (es : List Event) :
    WF (runEvents b es) := by
  induction es generalizing b with
  | nil => exact w
  | cons e es ih => exact ih (wf_applyEvent w e)

/-- Every state reachable from the empty book satisfies the data-model
invariant. -/
theorem reachable_wf {b : OrderBook} (h : Reachable b) : WF b := by
  obtain ⟨es, rfl⟩ := h
  exact wf_runEvents WF.emptyBook es

/-! ## Time-priority sortedness of price levels -/

theorem TimeBound.mono {b : OrderBook} {T T' : Nat} (h : TimeBound b T)
    (hT : T ≤ T') : TimeBound b T' :=
  fun k o hk => le_trans (h k o hk) hT

/-- A fresh id is in no price level. -/
theorem WF.fresh_not_in_level {b : OrderBook} (w : WF b) {nid : String}
    (h : afind b.orders_by_id nid = none) {s : Side} {p : Int}
    {l : List String} (hl : lfind (bookOf b s) p = some l) : nid ∉ l := by
  intro hm
  have hx := (w.level_of_lfind hl).2.2 nid hm
  rw [h] at hx
  exact absurd hx (by simp)

/-- An active id occurs only in the level its lookup entry names. -/
theorem WF.active_only_in_own_level {b : OrderBook} (w : WF b) {id : String}
    {info : OrderLookup} (hid : afind b.orders_by_id id = some info)
    {s : Side} {p : Int} {l : List String}
    (hl : lfind (bookOf b s) p = some l)
    (hne : ¬(s = info.side ∧ p = info.price)) : id ∉ l := by
  intro hm
  have hx := (w.level_of_lfind hl).2.2 id hm
  rw [hid] at hx
  injection hx with hx
  exact hne ⟨congrArg OrderLookup.side hx.symm,
    congrArg OrderLookup.price hx.symm⟩

/-- Times of a level are unchanged when the heap agrees (up to times) on
its members. -/
theorem times_frame {g H : List (String × Order)} {l : List String}
    (hx : ∀ x ∈ l, (afind H x).map Order.last_update_time =
      (afind g x).map Order.last_update_time) :
    (l.filterMap (afind H)).map Order.last_update_time =
      (l.filterMap (afind g)).map Order.last_update_time := by
  rw [List.map_filterMap, List.map_filterMap]
  exact List.filterMap_congr hx

/-- Sorted times survive taking a sublist of the level. -/
theorem times_sorted_sublist {g : List (String × Order)} {l l' : List String}
    (hsub : List.Sublist l' l)
    (hsort : List.Pairwise (fun a c : Nat => a ≤ c)
      ((l.filterMap (afind g)).map Order.last_update_time)) :
    List.Pairwise (fun a c : Nat => a ≤ c)
      ((l'.filterMap (afind g)).map Order.last_update_time) :=
  hsort.sublist ((hsub.filterMap (afind g)).map Order.last_update_time)

/-- Appending a new order whose `last_update_time` dominates every live
order keeps a level's times sorted. -/
theorem times_sorted_append {g H : List (String × Order)} {l : List String}
    {nid : String} {o' : Order} {T : Nat}
    (hfr : ∀ x ∈ l, afind H x = afind g x)
    (hH : afind H nid = some o')
    (hb : ∀ k o, afind g k = some o → o.last_update_time ≤ T)
    (ht : T ≤ o'.last_update_time)
    (hsort : List.Pairwise (fun a c : Nat => a ≤ c)
      ((l.filterMap (afind g)).map Order.last_update_time)) :
    List.Pairwise (fun a c : Nat => a ≤ c)
      (((l ++ [nid]).filterMap (afind H)).map Order.last_update_time) := by
  rw [List.filterMap_append]
  have h2 : List.filterMap (afind H) [nid] = [o'] := by
    simp [List.filterMap, hH]
  rw [h2, List.filterMap_congr hfr, List.map_append, List.pairwise_append]
  refine ⟨hsort, by simp, ?_⟩
  intro a ha c hc
  simp only [List.map_cons, List.map_nil, List.mem_singleton] at hc
  subst hc
  obtain ⟨o, hom, rfl⟩ := List.mem_map.mp ha
  obtain ⟨k, hk, hko⟩ := List.mem_filterMap.mp hom
  exact le_trans (hb k o hko) ht

theorem levelTimesAt_eq (b : OrderBook) (s : Side) (p : Int) :
    levelTimesAt b s p =
      (((lfind (bookOf b s) p).getD []).filterMap (afind b.heap)).map
        Order.last_update_time := by
  unfold levelTimesAt snapshots_at orders_at deref
  cases lfind (bookOf b s) p <;> rfl

/-- `add_order` with a dominating timestamp preserves the bound and the
per-level time sortedness. -/
theorem timeok_add {b : OrderBook} (w : WF b) {T : Nat} (hb : TimeBound b T)
    (hs : TimeSortedAll b) (id : String) (sd : Side) (p : Int) (q : Nat)
    {t : Nat} (ht : T ≤ t) :
    TimeBound (add_order b id sd p q t).2 t ∧
      TimeSortedAll (add_order b id sd p q t).2 := by
  cases hid : afind b.orders_by_id id with
  | some info =>
    rw [add_order_dup (by rw [hid]; rfl) sd p q t]
    exact ⟨hb.mono ht, hs⟩
  | none =>
    rw [add_order_ok hid sd p q t]
    have hfr : ∀ {s' : Side} {p' : Int} {l' : List String},
        lfind (bookOf b s') p' = some l' → ∀ x ∈ l',
        afind (aupsert b.heap id
          ({ id := id, side := sd, price := p, quantity := q,
             creation_time := t, last_update_time := t,
             last_txn := ⟨TxnType.Add, t⟩ } : Order)) x = afind b.heap x := by
      intro s' p' l' hl' x hx
      have hxne : x ≠ id := fun hh => (w.fresh_not_in_level hid hl') (hh ▸ hx)
      exact afind_aupsert_ne _ _ hxne
    constructor
    · intro k o hk
      simp only [update_lh_heap] at hk
      by_cases he : k = id
      · rw [he, afind_aupsert_self] at hk
        injection hk with hk
        rw [← hk]
      · rw [afind_aupsert_ne _ _ he] at hk
        exact le_trans (hb k o hk) ht
    · intro s' p'
      rw [levelTimesAt_eq]
      simp only [update_lh_heap, bookOf_update_lh]
      by_cases hside : s' = sd
      · rw [hside, bookOf_setBook_self]
        by_cases hp : p' = p
        · rw [hp, lfind_lpush_self]
          simp only [Option.getD_some]
          cases hf : lfind (bookOf b sd) p with
          | none =>
            simp only [hf, Option.getD_none, List.nil_append]
            refine times_sorted_append (l := []) (by simp) (afind_aupsert_self _ _ _)
              hb ht ?_
            simp
          | some l₀ =>
            simp only [hf, Option.getD_some]
            refine times_sorted_append (hfr hf) (afind_aupsert_self _ _ _) hb ht ?_
            have := hs sd p
            rw [levelTimesAt_eq, hf] at this
            exact this
        · rw [lfind_lpush_ne _ _ _ hp]
          cases hf : lfind (bookOf b sd) p' with
          | none => simp
          | some l' =>
            simp only [Option.getD_some]
            rw [List.filterMap_congr (hfr hf)]
            have := hs sd p'
            rw [levelTimesAt_eq, hf] at this
            simpa using this
      · rw [bookOf_setBook_ne _ _ hside]
        cases hf : lfind (bookOf b s') p' with
        | none => simp
        | some l' =>
          simp only [Option.getD_some]
          rw [List.filterMap_congr (hfr hf)]
          have := hs s' p'
          rw [levelTimesAt_eq, hf] at this
          simpa using this

/-- `remove_order` with a dominating timestamp preserves the bound and the
per-level time sortedness. -/
theorem timeok_remove {b : OrderBook} (w : WF b) {T : Nat} (hb : TimeBound b T)
    (hs : TimeSortedAll b) (id : String) {t : Nat} (ht : T ≤ t) :
    TimeBound (remove_order b id t).2 t ∧
      TimeSortedAll (remove_order b id t).2 := by
  cases hid : afind b.orders_by_id id with
  | none =>
    rw [remove_order_not_found hid t]
    exact ⟨hb.mono ht, hs⟩
  | some info =>
    cases hl : lfind (bookOf b info.side) info.price with
    | none =>
      rw [remove_order_nolevel hid hl t]
      exact ⟨hb.mono ht, hs⟩
    | some l =>
      rw [remove_order_ok hid hl t]
      have huntouched : ∀ {s₀ : Side} {p₀ : Int} {l₀ : List String},
          lfind (bookOf b s₀) p₀ = some l₀ → id ∉ l₀ →
          List.Pairwise (fun a c : Nat => a ≤ c)
            ((l₀.filterMap (afind (aerase b.heap id))).map
              Order.last_update_time) := by
        intro s₀ p₀ l₀ hf hnid
        rw [List.filterMap_congr
          (fun x hx => afind_aerase_ne _ (fun hh : x = id => hnid (hh ▸ hx)))]
        have hx := hs s₀ p₀
        rw [levelTimesAt_eq, hf] at hx
        simpa using hx
      constructor
      · intro k o hk
        simp only [update_lh_heap] at hk
        by_cases he : k = id
        · rw [he, afind_aerase_self] at hk
          exact absurd hk (by simp)
        · rw [afind_aerase_ne _ he] at hk
          exact le_trans (hb k o hk) ht
      · intro s' p'
        rw [levelTimesAt_eq]
        simp only [update_lh_heap, bookOf_update_lh]
        by_cases hside : s' = info.side
        · rw [hside, bookOf_setBook_self]
          by_cases hnil : l.erase id = []
          · rw [if_pos hnil]
            by_cases hp : p' = info.price
            · rw [hp, lfind_lerase_self]
              simp
            · rw [lfind_lerase_ne _ hp]
              cases hf : lfind (bookOf b info.side) p' with
              | none => simp
              | some l' =>
                simp only [Option.getD_some]
                exact huntouched hf
                  (w.active_only_in_own_level hid hf (fun hc => hp hc.2))
          · rw [if_neg hnil]
            by_cases hp : p' = info.price
            · rw [hp, lfind_lset_self _ (by rw [hl]; rfl)]
              simp only [Option.getD_some]
              have hnodup := (w.level_of_lfind hl).2.1
              rw [List.filterMap_congr
                (fun x hx => afind_aerase_ne _
                  (fun hh : x = id => (hnodup.mem_erase_iff.mp hx).1 hh))]
              have hx := hs info.side info.price
              rw [levelTimesAt_eq, hl] at hx
              exact times_sorted_sublist (List.erase_sublist _ _)
                (by simpa using hx)
            · rw [lfind_lset_ne _ _ hp]
              cases hf : lfind (bookOf b info.side) p' with
              | none => simp
              | some l' =>
                simp only [Option.getD_some]
                exact huntouched hf
                  (w.active_only_in_own_level hid hf (fun hc => hp hc.2))
        · rw [bookOf_setBook_ne _ _ hside]
          cases hf : lfind (bookOf b s') p' with
          | none => simp
          | some l' =>
            simp only [Option.getD_some]
            exact huntouched hf
              (w.active_only_in_own_level hid hf (fun hc => hside hc.1))

/-- Same-price `amend_order` branches preserve the bound and the per-level
time sortedness. -/
theorem timeok_amend_same {b : OrderBook} (w : WF b) {T : Nat}
    (hb : TimeBound b T) (hs : TimeSortedAll b) {id : String}
    {info : OrderLookup} (hid : afind b.orders_by_id id = some info)
    {o : Order} (ho : afind b.heap id = some o) {np : Option Int}
    (hnp : np = none ∨ np = some info.price) (nq : Option Nat) {t : Nat}
    (ht : T ≤ t) :
    TimeBound (amend_order b id np nq t).2 t ∧
      TimeSortedAll (amend_order b id np nq t).2 := by
  obtain ⟨l, hl, hmem⟩ := w.lookup_level id info hid
  have hnodup := (w.level_of_lfind hl).2.1
  cases nq with
  | none =>
    rw [amend_order_noop hid ho hnp (Or.inl rfl) t]
    exact ⟨hb.mono ht, hs⟩
  | some q' =>
    rcases Nat.lt_trichotomy q' o.quantity with hv | hv | hv
    · -- quantity decrease: last_update_time kept, levels untouched
      rw [amend_order_decrease hid ho hnp hv t]
      constructor
      · intro k o₀ hk
        simp only [update_h_heap] at hk
        by_cases he : k = id
        · rw [he, afind_aupsert_self] at hk
          injection hk with hk
          rw [← hk]
          exact le_trans (hb id o ho) ht
        · rw [afind_aupsert_ne _ _ he] at hk
          exact le_trans (hb k o₀ hk) ht
      · intro s' p'
        rw [levelTimesAt_eq]
        simp only [update_h_heap, bookOf_update_h]
        cases hf : lfind (bookOf b s') p' with
        | none => simp
        | some l₀ =>
          simp only [Option.getD_some]
          rw [times_frame (g := b.heap) ?_]
          · have hx := hs s' p'
            rw [levelTimesAt_eq, hf] at hx
            simpa using hx
          · intro x hx
            by_cases he : x = id
            · rw [he, afind_aupsert_self, ho]
              rfl
            · rw [afind_aupsert_ne _ _ he]
    · rw [hv, amend_order_noop hid ho hnp (Or.inr rfl) t]
      exact ⟨hb.mono ht, hs⟩
    · -- quantity increase: move to the tail of the same level
      rw [amend_order_increase hid ho hnp hv hl t]
      constructor
      · intro k o₀ hk
        simp only [update_lh_heap] at hk
        by_cases he : k = id
        · rw [he, afind_aupsert_self] at hk
          injection hk with hk
          rw [← hk]
        · rw [afind_aupsert_ne _ _ he] at hk
          exact le_trans (hb k o₀ hk) ht
      · intro s' p'
        rw [levelTimesAt_eq]
        simp only [update_lh_heap, bookOf_update_lh]
        have huntouched : ∀ {s₀ : Side} {p₀ : Int} {l₀ : List String},
            lfind (bookOf b s₀) p₀ = some l₀ → id ∉ l₀ →
            List.Pairwise (fun a c : Nat => a ≤ c)
              ((l₀.filterMap (afind (aupsert b.heap id
                ({ o with quantity := q', last_update_time := t,
                          last_txn := ⟨TxnType.Amend, t⟩ } : Order)))).map
                Order.last_update_time) := by
          intro s₀ p₀ l₀ hf hnid
          rw [List.filterMap_congr
            (fun x hx => afind_aupsert_ne _ _ (fun hh : x = id => hnid (hh ▸ hx)))]
          have hx := hs s₀ p₀
          rw [levelTimesAt_eq, hf] at hx
          simpa using hx
        by_cases hside : s' = info.side
        · rw [hside, bookOf_setBook_self]
          by_cases hp : p' = info.price
          · rw [hp, lfind_lset_self _ (by rw [hl]; rfl)]
            simp only [Option.getD_some]
            refine times_sorted_append
              (fun x hx => afind_aupsert_ne _ _
                (fun hh : x = id => (hnodup.mem_erase_iff.mp hx).1 hh))
              (afind_aupsert_self _ _ _) hb ht ?_
            have hx := hs info.side info.price
            rw [levelTimesAt_eq, hl] at hx
            exact times_sorted_sublist (List.erase_sublist _ _)
              (by simpa using hx)
          · rw [lfind_lset_ne _ _ hp]
            cases hf : lfind (bookOf b info.side) p' with
            | none => simp
            | some l₀ =>
              simp only [Option.getD_some]
              exact huntouched hf
                (w.active_only_in_own_level hid hf (fun hc => hp hc.2))
        · rw [bookOf_setBook_ne _ _ hside]
          cases hf : lfind (bookOf b s') p' with
          | none => simp
          | some l₀ =>
            simp only [Option.getD_some]
            exact huntouched hf
              (w.active_only_in_own_level hid hf (fun hc => hside hc.1))

/-- The price-changing `amend_order` branch preserves the bound and the
per-level time sortedness. -/
theorem timeok_price_change {b : OrderBook} (w : WF b) {T : Nat}
    (hb : TimeBound b T) (hs : TimeSortedAll b) {id : String}
    {info : OrderLookup} (hid : afind b.orders_by_id id = some info)
    {o : Order} (ho : afind b.heap id = some o) {v : Int}
    (hvp : v ≠ info.price) (nq : Option Nat) {t : Nat} (ht : T ≤ t) :
    TimeBound (amend_order b id (some v) nq t).2 t ∧
      TimeSortedAll (amend_order b id (some v) nq t).2 := by
  obtain ⟨l, hl, hmem⟩ := w.lookup_level id info hid
  have hnodup := (w.level_of_lfind hl).2.1
  rw [amend_order_price_change hid ho hvp hl nq t]
  have huntouched : ∀ {s₀ : Side} {p₀ : Int} {l₀ : List String},
      lfind (bookOf b s₀) p₀ = some l₀ → id ∉ l₀ →
      List.Pairwise (fun a c : Nat => a ≤ c)
        ((l₀.filterMap (afind (aupsert b.heap id
          ({ o with price := v, quantity := nq.getD o.quantity,
                    last_update_time := t,
                    last_txn := ⟨TxnType.Amend, t⟩ } : Order)))).map
          Order.last_update_time) := by
    intro s₀ p₀ l₀ hf hnid
    rw [List.filterMap_congr
      (fun x hx => afind_aupsert_ne _ _ (fun hh : x = id => hnid (hh ▸ hx)))]
    have hx := hs s₀ p₀
    rw [levelTimesAt_eq, hf] at hx
    simpa using hx
  -- lfind in the intermediate map M1 agrees with the original book except
  -- at the old price
  have hm1 : ∀ p₀ : Int, p₀ ≠ info.price →
      lfind (if l.erase id = []
             then lerase (bookOf b info.side) info.price
             else lset (bookOf b info.side) info.price (l.erase id)) p₀ =
      lfind (bookOf b info.side) p₀ := by
    intro p₀ hp₀
    by_cases hnil : l.erase id = []
    · rw [if_pos hnil, lfind_lerase_ne _ hp₀]
    · rw [if_neg hnil, lfind_lset_ne _ _ hp₀]
  constructor
  · intro k o₀ hk
    simp only [update_lh_heap] at hk
    by_cases he : k = id
    · rw [he, afind_aupsert_self] at hk
      injection hk with hk
      rw [← hk]
    · rw [afind_aupsert_ne _ _ he] at hk
      exact le_trans (hb k o₀ hk) ht
  · intro s' p'
    rw [levelTimesAt_eq]
    simp only [update_lh_heap, bookOf_update_lh]
    by_cases hside : s' = info.side
    · rw [hside, bookOf_setBook_self]
      by_cases hp : p' = v
      · rw [hp, lfind_lpush_self]
        simp only [Option.getD_some]
        rw [hm1 v hvp]
        cases hf : lfind (bookOf b info.side) v with
        | none =>
          simp only [Option.getD_none, List.nil_append]
          refine times_sorted_append (g := b.heap) (l := []) (by simp)
            (afind_aupsert_self _ _ _) hb ht ?_
          simp
        | some l₂ =>
          simp only [Option.getD_some]
          have hnid : id ∉ l₂ :=
            w.active_only_in_own_level hid hf (fun hc => hvp hc.2)
          refine times_sorted_append
            (fun x hx => afind_aupsert_ne _ _ (fun hh : x = id => hnid (hh ▸ hx)))
            (afind_aupsert_self _ _ _) hb ht ?_
          have hx := hs info.side v
          rw [levelTimesAt_eq, hf] at hx
          simpa using hx
      · rw [lfind_lpush_ne _ _ _ hp]
        by_cases hold : p' = info.price
        · -- the depleted old level
          rw [hold]
          by_cases hnil : l.erase id = []
          · rw [if_pos hnil, lfind_lerase_self]
            simp
          · rw [if_neg hnil, lfind_lset_self _ (by rw [hl]; rfl)]
            simp only [Option.getD_some]
            rw [List.filterMap_congr
              (fun x hx => afind_aupsert_ne _ _
                (fun hh : x = id => (hnodup.mem_erase_iff.mp hx).1 hh))]
            have hx := hs info.side info.price
            rw [levelTimesAt_eq, hl] at hx
            exact times_sorted_sublist (List.erase_sublist _ _)
              (by simpa using hx)
        · rw [hm1 p' hold]
          cases hf : lfind (bookOf b info.side) p' with
          | none => simp
          | some l₀ =>
            simp only [Option.getD_some]
            exact huntouched hf
              (w.active_only_in_own_level hid hf (fun hc => hold hc.2))
    · rw [bookOf_setBook_ne _ _ hside]
      cases hf : lfind (bookOf b s') p' with
      | none => simp
      | some l₀ =>
        simp only [Option.getD_some]
        exact huntouched hf
          (w.active_only_in_own_level hid hf (fun hc => hside hc.1))

/-- `amend_order` with a dominating timestamp preserves the bound and the
per-level time sortedness. -/
theorem timeok_amend {b : OrderBook} (w : WF b) {T : Nat} (hb : TimeBound b T)
    (hs : TimeSortedAll b) (id : String) (np : Option Int) (nq : Option Nat)
    {t : Nat} (ht : T ≤ t) :
    TimeBound (amend_order b id np nq t).2 t ∧
      TimeSortedAll (amend_order b id np nq t).2 := by
  cases hid : afind b.orders_by_id id with
  | none =>
    rw [amend_order_not_found hid np nq t]
    exact ⟨hb.mono ht, hs⟩
  | some info =>
    cases ho : afind b.heap id with
    | none =>
      rw [amend_order_null hid ho np nq t]
      exact ⟨hb.mono ht, hs⟩
    | some o =>
      cases np with
      | some v =>
        by_cases hvp : v = info.price
        · subst hvp
          exact timeok_amend_same w hb hs hid ho (Or.inr rfl) nq ht
        · exact timeok_price_change w hb hs hid ho hvp nq ht
      | none =>
        exact timeok_amend_same w hb hs hid ho (Or.inl rfl) nq ht

theorem timeok_applyEvent {b : OrderBook} (w : WF b) {T : Nat}
    (hb : TimeBound b T) (hs : TimeSortedAll b) (e : Event)
    (ht : T ≤ e.time) :
    TimeBound (applyEvent b e) e.time ∧ TimeSortedAll (applyEvent b e) := by
  cases e with
  | add id side price qty t => exact timeok_add w hb hs id side price qty ht
  | remove id t => exact timeok_remove w hb hs id ht
  | amend id np nq t => exact timeok_amend w hb hs id np nq ht

theorem timeok_runEvents {b : OrderBook} (w : WF b) {T : Nat}
    {es : List Event} (hm : timesMono T es) (hb : TimeBound b T)
    (hs : TimeSortedAll b) : TimeSortedAll (runEvents b es) := by
  induction es generalizing b T with
  | nil => exact hs
  | cons e es ih =>
    obtain ⟨h1, h2⟩ := hm
    obtain ⟨hb', hs'⟩ := timeok_applyEvent w hb hs e h1
    exact ih (wf_applyEvent w e) h2 hb' hs'

theorem emptyBook_timeBound : TimeBound emptyBook 0 := by
  intro k o hk
  simp [emptyBook, afind] at hk

theorem emptyBook_timeSorted : TimeSortedAll emptyBook := by
  intro s p
  rw [levelTimesAt_eq]
  cases s <;> simp [emptyBook, bookOf, lfind]

/-- Under nondecreasing call timestamps, every price level of every
reachable state is sorted by ascending `last_update_time`. -/
theorem monotone_trace_sorted (es : List Event) (hm : timesMono 0 es) :
    TimeSortedAll (runEvents emptyBook es) :=
  timeok_runEvents WF.emptyBook hm emptyBook_timeBound emptyBook_timeSorted

/-! ## The claims -/

/-- C1: in every reachable state with an active order `id` (price `p`,
quantity `q`), amending with the price omitted or equal to `p` and a smaller
quantity `q'` returns true, sets the order's quantity to `q'` and its
`last_transaction` to `(Amend, t)`, and leaves its `last_update_time`, its
position in its price level (both side maps are untouched), and every other
order and price level unchanged. -/
theorem claim_C1 {b : OrderBook} (hr : Reachable b) {id : String}
    {info : OrderLookup} (hid : afind b.orders_by_id id = some info)
    {o : Order} (ho : afind b.heap id = some o) {np : Option Int}
    (hnp : np = none ∨ np = some o.price) {q' : Nat} (hq : q' < o.quantity)
    (t : Nat) :
    (amend_order b id np (some q') t).1 = true ∧
    (amend_order b id np (some q') t).2.bid_book = b.bid_book ∧
    (amend_order b id np (some q') t).2.ask_book = b.ask_book ∧
    (amend_order b id np (some q') t).2.orders_by_id = b.orders_by_id ∧
    deref (amend_order b id np (some q') t).2 id =
      some { o with quantity := q', last_txn := ⟨TxnType.Amend, t⟩ } ∧
    (∀ k, k ≠ id → deref (amend_order b id np (some q') t).2 k = deref b k) := by
  have w := reachable_wf hr
  obtain ⟨o₀, ho₀, f1, f2, f3⟩ := w.lookup_heap id info hid
  have hoo : o₀ = o := by
    rw [ho] at ho₀
    injection ho₀ with e
    exact e.symm
  rw [hoo] at f1 f2 f3
  have hnp' : np = none ∨ np = some info.price := by
    rw [← f3]
    exact hnp
  rw [amend_order_decrease hid ho hnp' hq t]
  refine ⟨rfl, rfl, rfl, rfl, ?_, ?_⟩
  · show afind (aupsert b.heap id _) id = _
    rw [afind_aupsert_self]
  · intro k hk
    show afind (aupsert b.heap id _) k = afind b.heap k
    rw [afind_aupsert_ne _ _ hk]

theorem claim_C1_witness :
    (amend_order bW "1" none (some 100) 7).1 = true ∧
    (amend_order bW "1" none (some 100) 7).2.bid_book = bW.bid_book ∧
    (amend_order bW "1" none (some 100) 7).2.ask_book = bW.ask_book ∧
    (amend_order bW "1" none (some 100) 7).2.orders_by_id = bW.orders_by_id ∧
    deref (amend_order bW "1" none (some 100) 7).2 "1" =
      some { id := "1", side := Side.Bid, price := 50, quantity := 100,
             creation_time := 0, last_update_time := 0,
             last_txn := ⟨TxnType.Amend, 7⟩ } ∧
    (∀ k, k ≠ "1" →
      deref (amend_order bW "1" none (some 100) 7).2 k = deref bW k) := by
  have hid : afind bW.orders_by_id "1" = some ⟨Side.Bid, 50⟩ := by decide
  have ho : afind bW.heap "1" =
      some ⟨"1", Side.Bid, 50, 400, 0, 0, ⟨TxnType.Add, 0⟩⟩ := by decide
  exact claim_C1 ⟨esW, rfl⟩ hid ho (Or.inl rfl) (by decide) 7

/-- C9: the result and effect of `remove_order` do not depend on its
timestamp argument (the body never reads it). -/
theorem claim_C9 (b : OrderBook) (id : String) (t1 t2 : Nat) :
    remove_order b id t1 = remove_order b id t2 := rfl

/-- C10: amending an active order to quantity `0` (no price argument) takes
the quantity-decrease path: it returns true and leaves the order active in
the book with quantity `0` — the side maps are untouched and `get_order`
still returns it. -/
theorem claim_C10 {b : OrderBook} {id : String} {info : OrderLookup}
    (hid : afind b.orders_by_id id = some info) {o : Order}
    (ho : afind b.heap id = some o) (hq : 0 < o.quantity) (t : Nat) :
    (amend_order b id none (some 0) t).1 = true ∧
    get_order (amend_order b id none (some 0) t).2 id = some id ∧
    deref (amend_order b id none (some 0) t).2 id =
      some { o with quantity := 0, last_txn := ⟨TxnType.Amend, t⟩ } ∧
    (amend_order b id none (some 0) t).2.bid_book = b.bid_book ∧
    (amend_order b id none (some 0) t).2.ask_book = b.ask_book := by
  rw [amend_order_decrease hid ho (Or.inl rfl) hq t]
  refine ⟨rfl, ?_, ?_, rfl, rfl⟩
  · rw [get_order]
    simp only [update_h_orders_by_id, hid]
  · show afind (aupsert b.heap id _) id = _
    rw [afind_aupsert_self]

theorem claim_C10_witness :
    (amend_order bW "2" none (some 0) 9).1 = true ∧
    get_order (amend_order bW "2" none (some 0) 9).2 "2" = some "2" ∧
    deref (amend_order bW "2" none (some 0) 9).2 "2" =
      some { id := "2", side := Side.Bid, price := 50, quantity := 0,
             creation_time := 1, last_update_time := 1,
             last_txn := ⟨TxnType.Amend, 9⟩ } ∧
    (amend_order bW "2" none (some 0) 9).2.bid_book = bW.bid_book ∧
    (amend_order bW "2" none (some 0) 9).2.ask_book = bW.ask_book := by
  have hid : afind bW.orders_by_id "2" = some ⟨Side.Bid, 50⟩ := by decide
  have ho : afind bW.heap "2" =
      some ⟨"2", Side.Bid, 50, 300, 1, 1, ⟨TxnType.Add, 1⟩⟩ := by decide
  exact claim_C10 hid ho (by decide) 9

/-- C2 fails on the code: `get_order` returns the `shared_ptr` into live
order state, and a later `amend_order` is visible through it.  Concretely:
`get_order` on `bAlias` returns the reference to order "1" whose quantity
reads 400; after `amend_order("1", qty := 200)` the very same returned
reference reads quantity 200. -/
theorem claim_C2_counterexample :
    get_order bAlias "1" = some "1" ∧
    (deref bAlias "1").map Order.quantity = some 400 ∧
    (deref bAlias2 "1").map Order.quantity = some 200 ∧
    (deref bAlias2 "1").map Order.quantity ≠
      (deref bAlias "1").map Order.quantity := by
  refine ⟨by decide, by decide, by decide, by decide⟩

/-- C2 amended: query results are shared references into the book's live
order state, not independent snapshots — a later mutation is visible when
dereferencing a previously returned query result.  For any active order,
after a quantity-decrease amend the reference previously returned by
`get_order` dereferences to the mutated order. -/
theorem claim_C2 {b : OrderBook} {id : String} {info : OrderLookup}
    (hid : afind b.orders_by_id id = some info) {o : Order}
    (ho : afind b.heap id = some o) {q' : Nat} (hq : q' < o.quantity)
    (t : Nat) :
    get_order b id = some id ∧
    deref b id = some o ∧
    deref (amend_order b id none (some q') t).2 id =
      some { o with quantity := q', last_txn := ⟨TxnType.Amend, t⟩ } := by
  rw [amend_order_decrease hid ho (Or.inl rfl) hq t]
  refine ⟨?_, ho, ?_⟩
  · rw [get_order, hid]
  · show afind (aupsert b.heap id _) id = _
    rw [afind_aupsert_self]

theorem claim_C2_witness :
    get_order bAlias "1" = some "1" ∧
    deref bAlias "1" =
      some ⟨"1", Side.Bid, 50, 400, 0, 0, ⟨TxnType.Add, 0⟩⟩ ∧
    deref (amend_order bAlias "1" none (some 200) 1).2 "1" =
      some { id := "1", side := Side.Bid, price := 50, quantity := 200,
             creation_time := 0, last_update_time := 0,
             last_txn := ⟨TxnType.Amend, 1⟩ } := by
  have hid : afind bAlias.orders_by_id "1" = some ⟨Side.Bid, 50⟩ := by decide
  have ho : afind bAlias.heap "1" =
      some ⟨"1", Side.Bid, 50, 400, 0, 0, ⟨TxnType.Add, 0⟩⟩ := by decide
  exact claim_C2 hid ho (by decide) 1

/-- C3 fails on the code as stated: with arbitrary explicit timestamps, two
adds (t = 10 then t = 5) at the same price leave the level in arrival
order [10, 5], which is not ascending `last_update_time`, and no amend was
involved. -/
theorem claim_C3_counterexample :
    Reachable bBack ∧
    levelTimesAt bBack Side.Bid 50 = [10, 5] ∧
    ¬ List.Pairwise (fun a c : Nat => a ≤ c)
        (levelTimesAt bBack Side.Bid 50) := by
  refine ⟨⟨esBack, rfl⟩, by decide, by decide⟩

/-- C3 amended: in every state reachable from the empty book by a call
sequence whose explicit timestamps are nondecreasing, every price level on
both sides is sorted by ascending `last_update_time` (quantity-decrease
amends keep both the order's position and its `last_update_time`, so they
cannot break the ordering). -/
theorem claim_C3 (es : List Event) (hm : timesMono 0 es) (s : Side)
    (p : Int) :
    List.Pairwise (fun a c : Nat => a ≤ c)
      (levelTimesAt (runEvents emptyBook es) s p) :=
  monotone_trace_sorted es hm s p

theorem claim_C3_witness :
    timesMono 0 esW ∧
    List.Pairwise (fun a c : Nat => a ≤ c)
      (levelTimesAt (runEvents emptyBook esW) Side.Bid 50) := by
  have hm : timesMono 0 esW := by
    refine ⟨by decide, by decide, by decide, trivial⟩
  exact ⟨hm, claim_C3 esW hm Side.Bid 50⟩

theorem orders_at_eq (b : OrderBook) (s : Side) (p : Int) :
    orders_at b s p = (lfind (bookOf b s) p).getD [] := by
  rw [orders_at]
  cases lfind (bookOf b s) p <;> rfl

/-- C6: in every reachable state with an active order `id` (price `p`,
quantity `q`), amending with the price omitted or equal to `p` and a larger
quantity `q'` returns true, sets quantity to `q'`, `last_update_time` to
`t` and `last_transaction` to `(Amend, t)`, and moves the order to the tail
of its price level, after all orders previously ahead of it; all other
levels and orders are untouched. -/
theorem claim_C6 {b : OrderBook} (hr : Reachable b) {id : String}
    {info : OrderLookup} (hid : afind b.orders_by_id id = some info)
    {o : Order} (ho : afind b.heap id = some o) {np : Option Int}
    (hnp : np = none ∨ np = some o.price) {q' : Nat} (hq : o.quantity < q')
    (t : Nat) :
    (amend_order b id np (some q') t).1 = true ∧
    deref (amend_order b id np (some q') t).2 id =
      some { o with quantity := q', last_update_time := t,
                    last_txn := ⟨TxnType.Amend, t⟩ } ∧
    orders_at (amend_order b id np (some q') t).2 o.side o.price =
      (orders_at b o.side o.price).erase id ++ [id] ∧
    (∀ s' p', ¬(s' = o.side ∧ p' = o.price) →
      orders_at (amend_order b id np (some q') t).2 s' p' =
        orders_at b s' p') ∧
    (∀ k, k ≠ id → deref (amend_order b id np (some q') t).2 k = deref b k) := by
  have w := reachable_wf hr
  obtain ⟨o₀, ho₀, f1, f2, f3⟩ := w.lookup_heap id info hid
  have hoo : o₀ = o := by
    rw [ho] at ho₀
    injection ho₀ with e
    exact e.symm
  rw [hoo] at f1 f2 f3
  obtain ⟨l, hl, hmem⟩ := w.lookup_level id info hid
  have hnp' : np = none ∨ np = some info.price := by
    rw [← f3]
    exact hnp
  rw [amend_order_increase hid ho hnp' hq hl t]
  refine ⟨rfl, ?_, ?_, ?_, ?_⟩
  · show afind (aupsert b.heap id _) id = _
    rw [afind_aupsert_self]
  · rw [orders_at_eq, orders_at_eq, f2, f3]
    simp only [bookOf_update_lh, bookOf_setBook_self]
    rw [lfind_lset_self _ (by rw [hl]; rfl), hl]
    rfl
  · intro s' p' hne
    rw [orders_at_eq, orders_at_eq]
    simp only [bookOf_update_lh]
    by_cases hs : s' = info.side
    · have hp : p' ≠ info.price := by
        intro hp
        exact hne ⟨by rw [hs, f2], by rw [hp, f3]⟩
      rw [hs, bookOf_setBook_self, lfind_lset_ne _ _ hp]
    · rw [bookOf_setBook_ne _ _ hs]
  · intro k hk
    show afind (aupsert b.heap id _) k = afind b.heap k
    rw [afind_aupsert_ne _ _ hk]

theorem claim_C6_witness :
    (amend_order bW "1" none (some 500) 7).1 = true ∧
    deref (amend_order bW "1" none (some 500) 7).2 "1" =
      some { id := "1", side := Side.Bid, price := 50, quantity := 500,
             creation_time := 0, last_update_time := 7,
             last_txn := ⟨TxnType.Amend, 7⟩ } ∧
    orders_at (amend_order bW "1" none (some 500) 7).2 Side.Bid 50 =
      (orders_at bW Side.Bid 50).erase "1" ++ ["1"] ∧
    (∀ s' p', ¬(s' = Side.Bid ∧ p' = (50 : Int)) →
      orders_at (amend_order bW "1" none (some 500) 7).2 s' p' =
        orders_at bW s' p') ∧
    (∀ k, k ≠ "1" →
      deref (amend_order bW "1" none (some 500) 7).2 k = deref bW k) := by
  have hid : afind bW.orders_by_id "1" = some ⟨Side.Bid, 50⟩ := by decide
  have ho : afind bW.heap "1" =
      some ⟨"1", Side.Bid, 50, 400, 0, 0, ⟨TxnType.Add, 0⟩⟩ := by decide
  exact claim_C6 ⟨esW, rfl⟩ hid ho (Or.inl rfl) (by decide) 7

/-- C8: in every reachable state `is_crossed` is true exactly when both
sides have a top price and the top ask is at most the top bid; the top
prices are the extrema of the active prices of their sides (best ask is the
minimum active ask, best bid the maximum active bid), and an empty side
forces `is_crossed` to be false. -/
theorem claim_C8 {b : OrderBook} (hr : Reachable b) :
    (is_crossed b = true ↔
      (∃ ta tb, top_price b Side.Ask = some ta ∧
        top_price b Side.Bid = some tb ∧ ta ≤ tb)) ∧
    (∀ ta, top_price b Side.Ask = some ta →
      ta ∈ price_levels b Side.Ask ∧ ∀ p ∈ price_levels b Side.Ask, ta ≤ p) ∧
    (∀ tb, top_price b Side.Bid = some tb →
      tb ∈ price_levels b Side.Bid ∧ ∀ p ∈ price_levels b Side.Bid, p ≤ tb) ∧
    ((num_price_levels b Side.Ask = 0 ∨ num_price_levels b Side.Bid = 0) →
      is_crossed b = false) := by
  have w := reachable_wf hr
  refine ⟨?_, ?_, ?_, ?_⟩
  · cases htb : top_price b Side.Bid with
    | none =>
      cases hta : top_price b Side.Ask with
      | none =>
        rw [is_crossed, htb, hta]
        simp
      | some ta =>
        rw [is_crossed, htb, hta]
        simp
    | some tb =>
      cases hta : top_price b Side.Ask with
      | none =>
        rw [is_crossed, htb, hta]
        simp
      | some ta =>
        rw [is_crossed, htb, hta]
        simp
  · intro ta hta
    rw [top_price] at hta
    cases hbk : bookOf b Side.Ask with
    | nil =>
      rw [hbk] at hta
      exact absurd hta (by simp)
    | cons e rest =>
      rw [hbk] at hta
      injection hta with hta
      have hsort := w.keys_sorted Side.Ask
      rw [hbk, List.map_cons, List.pairwise_cons] at hsort
      rw [price_levels, hbk, List.map_cons]
      constructor
      · rw [← hta]
        exact List.mem_cons_self _ _
      · intro p hp
        rcases List.mem_cons.mp hp with h | h
        · rw [← hta, h]
        · have hk := hsort.1 p h
          rw [keyLt] at hk
          simp only [decide_eq_true_eq] at hk
          rw [← hta]
          exact le_of_lt hk
  · intro tb htb
    rw [top_price] at htb
    cases hbk : bookOf b Side.Bid with
    | nil =>
      rw [hbk] at htb
      exact absurd htb (by simp)
    | cons e rest =>
      rw [hbk] at htb
      injection htb with htb
      have hsort := w.keys_sorted Side.Bid
      rw [hbk, List.map_cons, List.pairwise_cons] at hsort
      rw [price_levels, hbk, List.map_cons]
      constructor
      · rw [← htb]
        exact List.mem_cons_self _ _
      · intro p hp
        rcases List.mem_cons.mp hp with h | h
        · rw [← htb, h]
        · have hk := hsort.1 p h
          rw [keyLt] at hk
          simp only [decide_eq_true_eq] at hk
          rw [← htb]
          exact le_of_lt hk
  · intro h0
    rcases h0 with h0 | h0
    · rw [num_price_levels] at h0
      have hnil : bookOf b Side.Ask = [] := List.length_eq_zero.mp h0
      have hta : top_price b Side.Ask = none := by rw [top_price, hnil]
      rw [is_crossed, hta]
      cases top_price b Side.Bid <;> rfl
    · rw [num_price_levels] at h0
      have hnil : bookOf b Side.Bid = [] := List.length_eq_zero.mp h0
      have htb : top_price b Side.Bid = none := by rw [top_price, hnil]
      rw [is_crossed, htb]

theorem claim_C8_witness :
    (is_crossed bW = true ↔
      (∃ ta tb, top_price bW Side.Ask = some ta ∧
        top_price bW Side.Bid = some tb ∧ ta ≤ tb)) ∧
    (∀ ta, top_price bW Side.Ask = some ta →
      ta ∈ price_levels bW Side.Ask ∧
        ∀ p ∈ price_levels bW Side.Ask, ta ≤ p) ∧
    (∀ tb, top_price bW Side.Bid = some tb →
      tb ∈ price_levels bW Side.Bid ∧
        ∀ p ∈ price_levels bW Side.Bid, p ≤ tb) ∧
    ((num_price_levels bW Side.Ask = 0 ∨ num_price_levels bW Side.Bid = 0) →
      is_crossed bW = false) :=
  claim_C8 ⟨esW, rfl⟩

/-- C4: in every reachable state, `add_order` fails exactly on a duplicate
id, `remove_order` fails exactly on an unknown id, `amend_order` fails
exactly on an unknown id or a no-op amend (price absent or equal, and
quantity absent or equal), and every failing call leaves the book
unchanged. -/
theorem claim_C4 {b : OrderBook} (hr : Reachable b) (id : String) (s : Side)
    (p : Int) (q : Nat) (np : Option Int) (nq : Option Nat) (t : Nat) :
    ((add_order b id s p q t).1 = false ↔
      (afind b.orders_by_id id).isSome = true) ∧
    ((add_order b id s p q t).1 = false → (add_order b id s p q t).2 = b) ∧
    ((remove_order b id t).1 = false ↔ afind b.orders_by_id id = none) ∧
    ((remove_order b id t).1 = false → (remove_order b id t).2 = b) ∧
    ((amend_order b id np nq t).1 = false ↔
      (afind b.orders_by_id id = none ∨
        ∃ o, afind b.heap id = some o ∧
          (np = none ∨ np = some o.price) ∧
          (nq = none ∨ nq = some o.quantity))) ∧
    ((amend_order b id np nq t).1 = false → (amend_order b id np nq t).2 = b) := by
  have w := reachable_wf hr
  refine ⟨?_, ?_, ?_, ?_, ?_, ?_⟩
  · cases hid : afind b.orders_by_id id with
    | some info =>
      rw [add_order_dup (by rw [hid]; rfl) s p q t]
      simp [hid]
    | none =>
      rw [add_order_ok hid s p q t]
      simp [hid]
  · cases hid : afind b.orders_by_id id with
    | some info =>
      rw [add_order_dup (by rw [hid]; rfl) s p q t]
      intro _
      rfl
    | none =>
      rw [add_order_ok hid s p q t]
      intro h
      exact absurd h (by simp)
  · cases hid : afind b.orders_by_id id with
    | none =>
      rw [remove_order_not_found hid t]
      simp [hid]
    | some info =>
      obtain ⟨l, hl, hmem⟩ := w.lookup_level id info hid
      rw [remove_order_ok hid hl t]
      simp [hid]
  · cases hid : afind b.orders_by_id id with
    | none =>
      rw [remove_order_not_found hid t]
      intro _
      rfl
    | some info =>
      obtain ⟨l, hl, hmem⟩ := w.lookup_level id info hid
      rw [remove_order_ok hid hl t]
      intro h
      exact absurd h (by simp)
  · cases hid : afind b.orders_by_id id with
    | none =>
      rw [amend_order_not_found hid np nq t]
      exact iff_of_true rfl (Or.inl rfl)
    | some info =>
      rw [← hid]
      obtain ⟨o, ho, f1, f2, f3⟩ := w.lookup_heap id info hid
      obtain ⟨l, hl, hmem⟩ := w.lookup_level id info hid
      have huniq : ∀ {o₀ : Order}, afind b.heap id = some o₀ → o₀ = o := by
        intro o₀ h₀
        rw [ho] at h₀
        injection h₀ with h₀
        exact h₀.symm
      have same_iff : ∀ (np' : Option Int),
          (np' = none ∨ np' = some info.price) →
          ((amend_order b id np' nq t).1 = false ↔
            (afind b.orders_by_id id = none ∨
              ∃ o₀, afind b.heap id = some o₀ ∧
                (np' = none ∨ np' = some o₀.price) ∧
                (nq = none ∨ nq = some o₀.quantity))) := by
        intro np' hnp'
        have hpc : np' = none ∨ np' = some o.price := by
          rcases hnp' with h | h
          · exact Or.inl h
          · exact Or.inr (by rw [h, f3])
        cases nq with
        | none =>
          rw [amend_order_noop hid ho hnp' (Or.inl rfl) t]
          exact iff_of_true rfl (Or.inr ⟨o, ho, hpc, Or.inl rfl⟩)
        | some q' =>
          rcases Nat.lt_trichotomy q' o.quantity with hq | hq | hq
          · rw [amend_order_decrease hid ho hnp' hq t]
            refine iff_of_false (by simp) ?_
            rintro (hc | ⟨o₀, ho₀, hc1, hc2⟩)
            · rw [hid] at hc
              exact absurd hc (by simp)
            · rw [huniq ho₀] at hc2
              rcases hc2 with hc2 | hc2
              · exact absurd hc2 (by simp)
              · injection hc2 with hc2
                exact (Nat.ne_of_lt hq) hc2
          · rw [hq, amend_order_noop hid ho hnp' (Or.inr rfl) t]
            exact iff_of_true rfl (Or.inr ⟨o, ho, hpc, Or.inr rfl⟩)
          · rw [amend_order_increase hid ho hnp' hq hl t]
            refine iff_of_false (by simp) ?_
            rintro (hc | ⟨o₀, ho₀, hc1, hc2⟩)
            · rw [hid] at hc
              exact absurd hc (by simp)
            · rw [huniq ho₀] at hc2
              rcases hc2 with hc2 | hc2
              · exact absurd hc2 (by simp)
              · injection hc2 with hc2
                exact (Nat.ne_of_gt hq) hc2
      cases np with
      | none => exact same_iff none (Or.inl rfl)
      | some v =>
        by_cases hv : v = info.price
        · exact same_iff (some v) (Or.inr (by rw [hv]))
        · rw [amend_order_price_change hid ho hv hl nq t]
          refine iff_of_false (by simp) ?_
          rintro (hc | ⟨o₀, ho₀, hc1, hc2⟩)
          · rw [hid] at hc
            exact absurd hc (by simp)
          · rw [huniq ho₀] at hc1
            rcases hc1 with hc1 | hc1
            · exact absurd hc1 (by simp)
            · injection hc1 with hc1
              rw [f3] at hc1
              exact hv hc1
  · cases hid : afind b.orders_by_id id with
    | none =>
      rw [amend_order_not_found hid np nq t]
      intro _
      rfl
    | some info =>
      obtain ⟨o, ho, f1, f2, f3⟩ := w.lookup_heap id info hid
      obtain ⟨l, hl, hmem⟩ := w.lookup_level id info hid
      have same_frame : ∀ (np' : Option Int),
          (np' = none ∨ np' = some info.price) →
          ((amend_order b id np' nq t).1 = false →
            (amend_order b id np' nq t).2 = b) := by
        intro np' hnp'
        cases nq with
        | none =>
          rw [amend_order_noop hid ho hnp' (Or.inl rfl) t]
          intro _
          rfl
        | some q' =>
          rcases Nat.lt_trichotomy q' o.quantity with hq | hq | hq
          · rw [amend_order_decrease hid ho hnp' hq t]
            intro h
            exact absurd h (by simp)
          · rw [hq, amend_order_noop hid ho hnp' (Or.inr rfl) t]
            intro _
            rfl
          · rw [amend_order_increase hid ho hnp' hq hl t]
            intro h
            exact absurd h (by simp)
      cases np with
      | none => exact same_frame none (Or.inl rfl)
      | some v =>
        by_cases hv : v = info.price
        · exact same_frame (some v) (Or.inr (by rw [hv]))
        · rw [amend_order_price_change hid ho hv hl nq t]
          intro h
          exact absurd h (by simp)

theorem claim_C4_witness :
    ((add_order bW "1" Side.Bid 50 10 3).1 = false ↔
      (afind bW.orders_by_id "1").isSome = true) ∧
    ((add_order bW "1" Side.Bid 50 10 3).1 = false →
      (add_order bW "1" Side.Bid 50 10 3).2 = bW) ∧
    ((remove_order bW "1" 3).1 = false ↔ afind bW.orders_by_id "1" = none) ∧
    ((remove_order bW "1" 3).1 = false → (remove_order bW "1" 3).2 = bW) ∧
    ((amend_order bW "1" none none 3).1 = false ↔
      (afind bW.orders_by_id "1" = none ∨
        ∃ o, afind bW.heap "1" = some o ∧
          ((none : Option Int) = none ∨ (none : Option Int) = some o.price) ∧
          ((none : Option Nat) = none ∨
            (none : Option Nat) = some o.quantity))) ∧
    ((amend_order bW "1" none none 3).1 = false →
      (amend_order bW "1" none none 3).2 = bW) :=
  claim_C4 ⟨esW, rfl⟩ "1" Side.Bid 50 10 none none 3

/-- C5: in every reachable state with an active order `id`, amending to a
different price `v` returns true; the order is detached from its old level
(which is deleted exactly when it becomes empty), gets price `v`, the new
quantity if given, `last_update_time = t` and `last_transaction =
(Amend, t)`, and is appended at the tail of the found-or-created level at
`v`; all other levels, the other side, and all other orders are
untouched. -/
theorem claim_C5 {b : OrderBook} (hr : Reachable b) {id : String}
    {info : OrderLookup} (hid : afind b.orders_by_id id = some info)
    {o : Order} (ho : afind b.heap id = some o) {v : Int}
    (hv : v ≠ o.price) (nq : Option Nat) (t : Nat) :
    (amend_order b id (some v) nq t).1 = true ∧
    deref (amend_order b id (some v) nq t).2 id =
      some { o with price := v, quantity := nq.getD o.quantity,
                    last_update_time := t, last_txn := ⟨TxnType.Amend, t⟩ } ∧
    afind (amend_order b id (some v) nq t).2.orders_by_id id =
      some ⟨o.side, v⟩ ∧
    orders_at (amend_order b id (some v) nq t).2 o.side o.price =
      (orders_at b o.side o.price).erase id ∧
    orders_at (amend_order b id (some v) nq t).2 o.side v =
      orders_at b o.side v ++ [id] ∧
    (o.price ∈ price_levels (amend_order b id (some v) nq t).2 o.side ↔
      (orders_at b o.side o.price).erase id ≠ []) ∧
    (∀ p', p' ≠ o.price → p' ≠ v →
      orders_at (amend_order b id (some v) nq t).2 o.side p' =
        orders_at b o.side p') ∧
    (∀ s', s' ≠ o.side →
      bookOf (amend_order b id (some v) nq t).2 s' = bookOf b s') ∧
    (∀ k, k ≠ id → deref (amend_order b id (some v) nq t).2 k = deref b k) := by
  have w := reachable_wf hr
  obtain ⟨o₀, ho₀, f1, f2, f3⟩ := w.lookup_heap id info hid
  have hoo : o₀ = o := by
    rw [ho] at ho₀
    injection ho₀ with e
    exact e.symm
  rw [hoo] at f1 f2 f3
  obtain ⟨l, hl, hmem⟩ := w.lookup_level id info hid
  have hv' : v ≠ info.price := by
    rw [← f3]
    exact hv
  have hvp' : info.price ≠ v := Ne.symm hv'
  rw [amend_order_price_change hid ho hv' hl nq t]
  have hm1p : ∀ p₀ : Int, p₀ ≠ info.price →
      lfind (if l.erase id = []
             then lerase (bookOf b info.side) info.price
             else lset (bookOf b info.side) info.price (l.erase id)) p₀ =
      lfind (bookOf b info.side) p₀ := by
    intro p₀ hp₀
    by_cases hnil : l.erase id = []
    · rw [if_pos hnil, lfind_lerase_ne _ hp₀]
    · rw [if_neg hnil, lfind_lset_ne _ _ hp₀]
  refine ⟨rfl, ?_, ?_, ?_, ?_, ?_, ?_, ?_, ?_⟩
  · show afind (aupsert b.heap id _) id = _
    rw [afind_aupsert_self]
  · rw [f2]
    show afind (aupsert b.orders_by_id id _) id = _
    rw [afind_aupsert_self]
  · rw [orders_at_eq, orders_at_eq, f2, f3]
    simp only [bookOf_update_lh, bookOf_setBook_self]
    rw [lfind_lpush_ne _ _ _ hvp', hl]
    by_cases hnil : l.erase id = []
    · rw [if_pos hnil, lfind_lerase_self]
      rw [show ((some l).getD []).erase id = l.erase id from rfl, hnil]
      rfl
    · rw [if_neg hnil, lfind_lset_self _ (by rw [hl]; rfl)]
      rfl
  · rw [orders_at_eq, orders_at_eq, f2]
    simp only [bookOf_update_lh, bookOf_setBook_self]
    rw [lfind_lpush_self, hm1p v hv']
    cases lfind (bookOf b info.side) v <;> rfl
  · rw [orders_at_eq, f2, f3, price_levels]
    simp only [bookOf_update_lh, bookOf_setBook_self]
    rw [← lfind_isSome_iff, lfind_lpush_ne _ _ _ hvp', hl]
    by_cases hnil : l.erase id = []
    · rw [if_pos hnil, lfind_lerase_self]
      rw [show ((some l).getD []).erase id = l.erase id from rfl, hnil]
      simp
    · rw [if_neg hnil, lfind_lset_self _ (by rw [hl]; rfl)]
      rw [show ((some l).getD []).erase id = l.erase id from rfl]
      simp [hnil]
  · intro p' hp1 hp2
    rw [orders_at_eq, orders_at_eq, f2]
    simp only [bookOf_update_lh, bookOf_setBook_self]
    rw [lfind_lpush_ne _ _ _ hp2, hm1p p' (by rw [← f3]; exact hp1)]
  · intro s' hs
    rw [f2] at hs
    simp only [bookOf_update_lh]
    rw [bookOf_setBook_ne _ _ hs]
  · intro k hk
    show afind (aupsert b.heap id _) k = afind b.heap k
    rw [afind_aupsert_ne _ _ hk]

theorem claim_C5_witness :
    (amend_order bW "3" (some 50) none 7).1 = true ∧
    deref (amend_order bW "3" (some 50) none 7).2 "3" =
      some { id := "3", side := Side.Ask, price := 50, quantity := 200,
             creation_time := 2, last_update_time := 7,
             last_txn := ⟨TxnType.Amend, 7⟩ } ∧
    afind (amend_order bW "3" (some 50) none 7).2.orders_by_id "3" =
      some ⟨Side.Ask, 50⟩ ∧
    orders_at (amend_order bW "3" (some 50) none 7).2 Side.Ask 55 =
      (orders_at bW Side.Ask 55).erase "3" ∧
    orders_at (amend_order bW "3" (some 50) none 7).2 Side.Ask 50 =
      orders_at bW Side.Ask 50 ++ ["3"] ∧
    ((55 : Int) ∈
        price_levels (amend_order bW "3" (some 50) none 7).2 Side.Ask ↔
      (orders_at bW Side.Ask 55).erase "3" ≠ []) ∧
    (∀ p', p' ≠ (55 : Int) → p' ≠ (50 : Int) →
      orders_at (amend_order bW "3" (some 50) none 7).2 Side.Ask p' =
        orders_at bW Side.Ask p') ∧
    (∀ s', s' ≠ Side.Ask →
      bookOf (amend_order bW "3" (some 50) none 7).2 s' = bookOf bW s') ∧
    (∀ k, k ≠ "3" →
      deref (amend_order bW "3" (some 50) none 7).2 k = deref bW k) := by
  have hid : afind bW.orders_by_id "3" = some ⟨Side.Ask, 55⟩ := by decide
  have ho : afind bW.heap "3" =
      some ⟨"3", Side.Ask, 55, 200, 2, 2, ⟨TxnType.Add, 2⟩⟩ := by decide
  exact claim_C5 ⟨esW, rfl⟩ hid ho (by decide) none 7

/-- An id occurring (once) in exactly the level keyed `p₀` occurs exactly
once in the concatenation of all levels. -/
theorem count_flatten_one {m : List (Int × List String)} {id : String}
    (p₀ : Int) (hyp : ∀ e ∈ m, e.2.count id = if e.1 = p₀ then 1 else 0)
    (hkeys : (m.map Prod.fst).Nodup) (hin : p₀ ∈ m.map Prod.fst) :
    ((m.map Prod.snd).flatten).count id = 1 := by
  induction m with
  | nil => simp at hin
  | cons e r ih =>
    rw [List.map_cons, List.flatten_cons, List.count_append]
    rw [List.map_cons, List.nodup_cons] at hkeys
    rw [List.map_cons, List.mem_cons] at hin
    by_cases hp : e.1 = p₀
    · have h1 : e.2.count id = 1 := by
        have hx := hyp e (List.mem_cons_self _ _)
        rwa [if_pos hp] at hx
      have h0 : ((r.map Prod.snd).flatten).count id = 0 := by
        rw [List.count_flatten]
        apply List.sum_eq_zero
        intro x hx
        obtain ⟨l', hl', rfl⟩ := List.mem_map.mp hx
        obtain ⟨e', he', rfl⟩ := List.mem_map.mp hl'
        have hx2 := hyp e' (List.mem_cons_of_mem _ he')
        rw [if_neg ?_] at hx2
        · exact hx2
        · intro hq
          exact hkeys.1
            (List.mem_map.mpr ⟨e', he', by rw [hq, ← hp]⟩)
      rw [h1, h0]
    · have h1 : e.2.count id = 0 := by
        have hx := hyp e (List.mem_cons_self _ _)
        rwa [if_neg hp] at hx
      have hin' : p₀ ∈ r.map Prod.fst := by
        rcases hin with h | h
        · exact absurd h.symm hp
        · exact h
      rw [h1, ih (fun e' he' => hyp e' (List.mem_cons_of_mem _ he'))
        hkeys.2 hin']

/-- C7: in every reachable state, `num_price_levels` counts exactly the
distinct prices with at least one active order (levels are never empty, and
active prices are pairwise distinct); and for every active id, `get_order`
returns it, the dereferenced order's id/(side, price) match its lookup
location, it occurs in its price level, and it occurs exactly once in
`orders_on_side` of its side. -/
theorem claim_C7 {b : OrderBook} (hr : Reachable b) :
    (∀ s : Side, num_price_levels b s = (price_levels b s).length ∧
      (price_levels b s).Nodup ∧
      (∀ p : Int, p ∈ price_levels b s ↔ orders_at b s p ≠ [])) ∧
    (∀ id info, afind b.orders_by_id id = some info →
      get_order b id = some id ∧
      (∃ o, deref b id = some o ∧ o.id = id ∧ o.side = info.side ∧
        o.price = info.price) ∧
      id ∈ orders_at b info.side info.price ∧
      (orders_on_side b info.side).count id = 1) := by
  have w := reachable_wf hr
  constructor
  · intro s
    refine ⟨by rw [num_price_levels, price_levels, List.length_map],
      w.book_keys_nodup s, ?_⟩
    intro p
    rw [orders_at_eq]
    constructor
    · intro hp
      have hsome : (lfind (bookOf b s) p).isSome = true :=
        (lfind_isSome_iff _ _).mpr hp
      obtain ⟨l, hl⟩ := Option.isSome_iff_exists.mp hsome
      rw [hl]
      exact (w.level_of_lfind hl).1
    · intro hne
      by_contra hp
      have hx : lfind (bookOf b s) p = none := (lfind_eq_none_iff _ _).mpr hp
      rw [hx] at hne
      exact hne rfl
  · intro id info hid
    obtain ⟨o, ho, f1, f2, f3⟩ := w.lookup_heap id info hid
    obtain ⟨l, hl, hmem⟩ := w.lookup_level id info hid
    have hlv := w.level_of_lfind hl
    refine ⟨?_, ⟨o, ho, f1, f2, f3⟩, ?_, ?_⟩
    · rw [get_order, hid]
    · rw [orders_at_eq, hl]
      exact hmem
    · rw [orders_on_side]
      refine count_flatten_one info.price ?_
        (w.book_keys_nodup info.side) ?_
      · intro e he
        obtain ⟨hne, hnd, hall⟩ := w.level_ok info.side e.1 e.2 he
        by_cases hp : e.1 = info.price
        · rw [if_pos hp]
          have h₂ : e.2 = l := by
            have hx := w.lfind_of_level_mem
              (show (e.1, e.2) ∈ bookOf b info.side from he)
            rw [hp, hl] at hx
            injection hx with hx
            exact hx.symm
          rw [h₂]
          exact List.count_eq_one_of_mem hlv.2.1 hmem
        · rw [if_neg hp]
          apply List.count_eq_zero_of_not_mem
          intro hmm2
          have hx := hall id hmm2
          rw [hid] at hx
          injection hx with hx
          exact hp (congrArg OrderLookup.price hx.symm)
      · exact (lfind_isSome_iff _ _).mp (by rw [hl]; rfl)

theorem claim_C7_witness :
    (∀ s : Side, num_price_levels bW s = (price_levels bW s).length ∧
      (price_levels bW s).Nodup ∧
      (∀ p : Int, p ∈ price_levels bW s ↔ orders_at bW s p ≠ [])) ∧
    (∀ id info, afind bW.orders_by_id id = some info →
      get_order bW id = some id ∧
      (∃ o, deref bW id = some o ∧ o.id = id ∧ o.side = info.side ∧
        o.price = info.price) ∧
      id ∈ orders_at bW info.side info.price ∧
      (orders_on_side bW info.side).count id = 1) :=
  claim_C7 ⟨esW, rfl⟩

end ob
